import Mathlib

/-!
Verification development for the fusion version-control engine
(Delta algebra, entity store, hash tree, repository, auto-merge sync).

The TypeScript sources are shallowly embedded: JavaScript objects become
insertion-ordered association lists with unique string keys (matching JS
object key-iteration semantics for non-integer string keys), mutation
becomes explicit state passing, thrown exceptions become `Except`, and
calls to `log.error` are collected in an explicit error log list.
-/

namespace Fusion

/-! ## JSON-like values and JS-object payloads

Entity payloads are JS objects with values nested up to depth 3
(`model/Entity.ts`, `storage/CommitGraph.ts`).  We model a JSON value and
an insertion-ordered association list for objects. -/

inductive JVal where
  | str : String → JVal
  | num : Int → JVal
  | obj : List (String × JVal) → JVal
  | arr : List JVal → JVal
deriving Repr

mutual

def JVal.beq : JVal → JVal → Bool
  | .str a, .str b => a == b
  | .num a, .num b => a == b
  | .obj a, .obj b => JVal.beqFields a b
  | .arr a, .arr b => JVal.beqList a b
  | _, _ => false

def JVal.beqFields : List (String × JVal) → List (String × JVal) → Bool
  | [], [] => true
  | (k, v) :: a, (k', v') :: b => k == k' && JVal.beq v v' && JVal.beqFields a b
  | _, _ => false

def JVal.beqList : List JVal → List JVal → Bool
  | [], [] => true
  | v :: a, v' :: b => JVal.beq v v' && JVal.beqList a b
  | _, _ => false

end

instance : BEq JVal := ⟨JVal.beq⟩

mutual

theorem JVal.beq_refl : (v : JVal) → JVal.beq v v = true
  | .str _ => by simp [JVal.beq]
  | .num _ => by simp [JVal.beq]
  | .obj fs => by simp [JVal.beq, JVal.beqFields_refl fs]
  | .arr vs => by simp [JVal.beq, JVal.beqList_refl vs]

theorem JVal.beqFields_refl : (fs : List (String × JVal)) → JVal.beqFields fs fs = true
  | [] => by simp [JVal.beqFields]
  | (k, v) :: fs => by simp [JVal.beqFields, JVal.beq_refl v, JVal.beqFields_refl fs]

theorem JVal.beqList_refl : (vs : List JVal) → JVal.beqList vs vs = true
  | [] => by simp [JVal.beqList]
  | v :: vs => by simp [JVal.beqList, JVal.beq_refl v, JVal.beqList_refl vs]

end

mutual

theorem JVal.eq_of_beq : {a b : JVal} → JVal.beq a b = true → a = b
  | .str _, .str _, h => by simpa [JVal.beq] using congrArg JVal.str (by simpa [JVal.beq] using h)
  | .str _, .num _, h => by simp [JVal.beq] at h
  | .str _, .obj _, h => by simp [JVal.beq] at h
  | .str _, .arr _, h => by simp [JVal.beq] at h
  | .num _, .str _, h => by simp [JVal.beq] at h
  | .num _, .num _, h => by simpa [JVal.beq] using congrArg JVal.num (by simpa [JVal.beq] using h)
  | .num _, .obj _, h => by simp [JVal.beq] at h
  | .num _, .arr _, h => by simp [JVal.beq] at h
  | .obj _, .str _, h => by simp [JVal.beq] at h
  | .obj _, .num _, h => by simp [JVal.beq] at h
  | .obj a, .obj b, h => by
      have := JVal.eqFields_of_beq (a := a) (b := b) (by simpa [JVal.beq] using h)
      simp [this]
  | .obj _, .arr _, h => by simp [JVal.beq] at h
  | .arr _, .str _, h => by simp [JVal.beq] at h
  | .arr _, .num _, h => by simp [JVal.beq] at h
  | .arr _, .obj _, h => by simp [JVal.beq] at h
  | .arr a, .arr b, h => by
      have := JVal.eqList_of_beq (a := a) (b := b) (by simpa [JVal.beq] using h)
      simp [this]

theorem JVal.eqFields_of_beq : {a b : List (String × JVal)} → JVal.beqFields a b = true → a = b
  | [], [], _ => rfl
  | [], (_, _) :: _, h => by simp [JVal.beqFields] at h
  | (_, _) :: _, [], h => by simp [JVal.beqFields] at h
  | (k, v) :: a, (k', v') :: b, h => by
      simp only [JVal.beqFields, Bool.and_eq_true, beq_iff_eq] at h
      obtain ⟨⟨hk, hv⟩, hrest⟩ := h
      have hv' := JVal.eq_of_beq (a := v) (b := v') hv
      have hr := JVal.eqFields_of_beq (a := a) (b := b) hrest
      simp [hk, hv', hr]

theorem JVal.eqList_of_beq : {a b : List JVal} → JVal.beqList a b = true → a = b
  | [], [], _ => rfl
  | [], _ :: _, h => by simp [JVal.beqList] at h
  | _ :: _, [], h => by simp [JVal.beqList] at h
  | v :: a, v' :: b, h => by
      simp only [JVal.beqList, Bool.and_eq_true] at h
      obtain ⟨hv, hrest⟩ := h
      have hv' := JVal.eq_of_beq (a := v) (b := v') hv
      have hr := JVal.eqList_of_beq (a := a) (b := b) hrest
      simp [hv', hr]

end

instance : DecidableEq JVal := fun a b =>
  if h : JVal.beq a b = true then
    .isTrue (JVal.eq_of_beq h)
  else
    .isFalse (fun he => h (he ▸ JVal.beq_refl a))

/-- A JS object: insertion-ordered association list with unique keys. -/
abbrev Payload := List (String × JVal)

/-- JS property read `p[k]` (absent keys read as undefined = `none`). -/
def oget (p : Payload) (k : String) : Option JVal :=
  (p.find? (fun kv => kv.1 == k)).map (·.2)

/-- JS `p.hasOwnProperty(k)` / `p[k] !== undefined` for payloads without
undefined-valued keys. -/
def ohas (p : Payload) (k : String) : Bool :=
  (oget p k).isSome

/-- JS assignment `p[k] = v`: replaces the binding in place when the key
exists (keeping its position in the iteration order), appends otherwise. -/
def oset (p : Payload) (k : String) (v : JVal) : Payload :=
  if ohas p k then p.map (fun kv => if kv.1 = k then (k, v) else kv)
  else p ++ [(k, v)]

/-- JS `delete p[k]`. -/
def odel (p : Payload) (k : String) : Payload :=
  p.filter (fun kv => kv.1 ≠ k)

/-- JS `Object.keys(p)` in insertion order. -/
def okeys (p : Payload) : List String :=
  p.map (·.1)

/-- JS object spread `{...a, ...b}`: keys of `a` in order with values
overridden by `b` where present, then the new keys of `b` in order. -/
def ospread (a b : Payload) : Payload :=
  b.foldl (fun acc kv => oset acc kv.1 kv.2) a

/-- JS `Object.keys(s)` on a string `s`: the character indices as strings. -/
def stringObjectKeys (s : String) : List String :=
  (List.range s.length).map toString

/-! ## Change data and classification (`model/Change.ts`)

A `ChangeData` is the triple `[entityId, reverseComponent, forwardComponent]`.
`Change.type()` classifies by non-emptiness of the two components. -/

structure ChangeData where
  entityId : String
  reverse : Payload
  forward : Payload
deriving Repr, DecidableEq

inductive ChangeType where
  | EMPTY | CREATE | UPDATE | DELETE
deriving Repr, DecidableEq

/-- `Change.type()` from `model/Change.ts`: UPDATE when both components have
keys, DELETE when only the reverse does, CREATE when only the forward does,
EMPTY otherwise. -/
def ChangeData.type (c : ChangeData) : ChangeType :=
  if c.reverse ≠ [] then
    if c.forward ≠ [] then .UPDATE else .DELETE
  else
    if c.forward ≠ [] then .CREATE else .EMPTY

/-- `Change.reversed()` from `model/Change.ts`: swap the two components. -/
def ChangeData.reversedC (c : ChangeData) : ChangeData :=
  ⟨c.entityId, c.forward, c.reverse⟩

/-! ## The Delta (`storage/CommitGraph.ts`, class `Delta`)

`Delta._data` is a JS object keyed by entity id whose values are
`ChangeData` triples (at most one change per entity, iteration in key
insertion order).  We carry it as the insertion-ordered list of triples.
Calls to `log.error` inside the algebra are returned as a list of logged
error messages alongside the resulting delta. -/

structure Delta where
  data : List ChangeData
deriving Repr, DecidableEq

/-- `Delta.change(entityId)` / `Delta.changeData(entityId)`. -/
def Delta.change (d : Delta) (e : String) : Option ChangeData :=
  d.data.find? (fun c => c.entityId == e)

/-- JS `this._data[id] = c` when the key `id` already exists: the entry is
replaced in place, keeping its position in the iteration order. -/
def Delta.replaceChange (d : Delta) (c : ChangeData) : Delta :=
  ⟨d.data.map (fun c0 => if c0.entityId = c.entityId then c else c0)⟩

/-- `Delta.removeChange(entityId)` minus its missing-key throw (callers in
the merge algebra only remove known-present entries); JS `delete` removes
the key from the iteration order. -/
def Delta.dropChange (d : Delta) (e : String) : Delta :=
  ⟨d.data.filter (fun c => c.entityId ≠ e)⟩

/-- `Delta.mergeChangeWithPriority(change)` from `storage/CommitGraph.ts`:
merge a next change into the delta for its entity.  Returns the updated
delta together with the list of `log.error` messages issued.  The JS code
mutates `firstChange.forwardComponent` / `.reverseComponent`, which writes
through to the stored triple, so the functional version replaces the
stored entry.  `if (nextForward)` / `if (nextReverse)` test objects, which
are always truthy in JS, so both merges happen unconditionally. -/
def Delta.mergeChangeWithPriority (d : Delta) (c : ChangeData) : Delta × List String :=
  match d.change c.entityId with
  | none =>
      -- no existing change: `addChangeFromData` assigns the new entry
      (⟨d.data ++ [c]⟩, [])
  | some first =>
      let firstCT := first.type
      let nextCT := c.type
      if firstCT = .UPDATE ∧ nextCT = .UPDATE then
        (d.replaceChange
          { first with
              forward := ospread first.forward c.forward,
              reverse := ospread c.reverse first.reverse }, [])
      else if firstCT = .CREATE ∧ nextCT = .UPDATE then
        (d.replaceChange { first with forward := ospread first.forward c.forward }, [])
      else if firstCT = .DELETE ∧ nextCT = .CREATE then
        (d.replaceChange ⟨c.entityId, first.reverse, c.forward⟩, [])
      else if firstCT = .CREATE ∧ nextCT = .DELETE then
        (d.dropChange c.entityId, [])
      else if nextCT = .EMPTY then
        (d, [])
      else
        (d, ["Irrational or unhandled delta sequence"])

/-- `Delta.addChangeFromData(changeData)`: merge when an entry for the
entity exists, otherwise append it. -/
def Delta.addChangeFromData (d : Delta) (c : ChangeData) : Delta × List String :=
  if (d.change c.entityId).isSome then d.mergeChangeWithPriority c
  else (⟨d.data ++ [c]⟩, [])

/-- `Delta.fromChanges(changes)`: fold the changes into an empty delta,
collecting all logged errors. -/
def Delta.fromChanges (cs : List ChangeData) : Delta × List String :=
  cs.foldl
    (fun acc c =>
      let r := acc.1.addChangeFromData c
      (r.1, acc.2 ++ r.2))
    (⟨[]⟩, [])

/-- `Delta.reversed()`: swap components of every change; the JS object keeps
its key iteration order. -/
def Delta.reversedD (d : Delta) : Delta :=
  ⟨d.data.map ChangeData.reversedC⟩

/-- `Delta.mergeWithPriority(next)`: merge every change of `next` in
iteration order. -/
def Delta.mergeWithPriority (d : Delta) (next : Delta) : Delta × List String :=
  next.data.foldl
    (fun acc c =>
      let r := acc.1.mergeChangeWithPriority c
      (r.1, acc.2 ++ r.2))
    (d, [])

/-- `squishDeltas(deltas)` from `storage/CommitGraph.ts`. -/
def squishDeltas (ds : List Delta) : Delta × List String :=
  ds.foldl
    (fun acc d =>
      let r := acc.1.mergeWithPriority d
      (r.1, acc.2 ++ r.2))
    (⟨[]⟩, [])

/-! ## Entities (`model/Entity.ts`, mirrored by `src/unnamed/part_003`)

An entity holds `_data` (a payload that includes its `id`) and belongs to a
registered class.  `parentId` is an abstract getter each class derives from
its payload; we model the canonical payload key `parentId` (empty string
when absent = root-parented). -/

structure EntityRec where
  typeName : String
  data : Payload
deriving Repr, DecidableEq

/-- `Entity.id` getter: `this._data.id`. -/
def EntityRec.eid (e : EntityRec) : String :=
  match oget e.data "id" with
  | some (.str s) => s
  | _ => ""

/-- `Entity.parentId` getter (class-specific in the source; modelled as the
`parentId` payload key, empty when absent). -/
def EntityRec.parentId (e : EntityRec) : String :=
  match oget e.data "parentId" with
  | some (.str s) => s
  | _ => ""

/-- `dumpToDict(entity)`: a copy of `_data` with `type_name` assigned. -/
def dumpToDict (e : EntityRec) : Payload :=
  oset e.data "type_name" (.str e.typeName)

/-- `loadFromDict(dict)`: split off `type_name` (error when it does not name
a registered class; we require it to be a present string) and rebuild the
entity from the remaining keys. -/
def loadFromDict (p : Payload) : Except String EntityRec :=
  match oget p "type_name" with
  | some (.str t) => .ok ⟨t, odel p "type_name"⟩
  | _ => .error "Entity class not found."

/-- `Entity.replace(new_data)` from `src/unnamed/part_003` lines 138-145:
throws when `new_data` carries an `id` key (JS: `new_data.id !== undefined`),
otherwise spreads `new_data` over the current `_data`.  In the Except
embedding an error leaves the entity value untouched by construction,
matching the JS throw happening before the assignment. -/
def EntityRec.replace (e : EntityRec) (newData : Payload) : Except String EntityRec :=
  if ohas newData "id" then
    .error "The id of an entity is immutable. Use the withId method to create an object with the new id."
  else
    .ok { e with data := ospread e.data newData }

/-! ## The domain store (`storage/domain-store/BaseStore.ts`)

`Store.applyChange` / `Store.applyDelta` over the store's entity state.
The entity state is the content of the mandatory unique `id` index: an
insertion-ordered list of entities with unique ids (`InMemoryStore`
stores entities only in its indexes). -/

abbrev StoreSt := List EntityRec

def StoreSt.findById (s : StoreSt) (id : String) : Option EntityRec :=
  s.find? (fun e => e.eid == id)

/-- `insertOne`: error when the id already exists, otherwise add. -/
def StoreSt.insertOne (s : StoreSt) (e : EntityRec) : Except String StoreSt :=
  if (s.findById e.eid).isSome then
    .error "Entity with this ID already exists."
  else
    .ok (s ++ [e])

/-- `updateOne`: error when the id is missing, otherwise replace in place. -/
def StoreSt.updateOne (s : StoreSt) (e : EntityRec) : Except String StoreSt :=
  if (s.findById e.eid).isSome then
    .ok (s.map (fun e0 => if e0.eid = e.eid then e else e0))
  else
    .error "Entity with this ID does not exist."

/-- `removeOne`: error when the id is missing, otherwise delete. -/
def StoreSt.removeOne (s : StoreSt) (e : EntityRec) : Except String StoreSt :=
  if (s.findById e.eid).isSome then
    .ok (s.filter (fun e0 => e0.eid ≠ e.eid))
  else
    .error "Entity with this ID does not exist."

/-- Modelled from the spec: `transformedEntity(entity, change)`
(`model/Entity.ts`, not shipped under `src/`; its callers and the older
`Entity.withAppliedChange` in `src/unnamed/part_003` are).  Per spec §4.2,
an UPDATE re-reads the current entity, applies `forward` over its
serialized form and rehydrates — `{...dumpToDict(entity), ...forward}`
passed through `loadFromDict`, exactly as `withAppliedChange` does. -/
def transformedEntity (e : EntityRec) (c : ChangeData) : Except String EntityRec :=
  loadFromDict (ospread (dumpToDict e) c.forward)

/-- `Store.applyChange(change)` from `storage/domain-store/BaseStore.ts`:
CREATE rehydrates the forward component and inserts; UPDATE re-reads the
current entity, transforms it and updates; DELETE looks up by id and
removes; EMPTY does nothing. -/
def StoreSt.applyChange (s : StoreSt) (c : ChangeData) : Except String StoreSt :=
  match c.type with
  | .CREATE => do
      let e ← loadFromDict c.forward
      s.insertOne e
  | .UPDATE =>
      match s.findById c.entityId with
      | none => .error "Last state retreival error (type update)"
      | some e => do
          let e' ← transformedEntity e c
          s.updateOne e'
  | .DELETE =>
      match s.findById c.entityId with
      | none => .error "Last state retreival error (type delete)"
      | some e => s.removeOne e
  | .EMPTY => .ok s

/-- `Store.applyDelta(delta)`: apply every change in iteration order. -/
def StoreSt.applyDelta (s : StoreSt) (d : Delta) : Except String StoreSt :=
  d.data.foldlM StoreSt.applyChange s

/-! ## Auto-merge conflict filtering (`storage/SyncUtils.ts`, `autoMergeForSync`)

The rebase step filters each local commit's delta against the dominant
commit's delta (lines 118-165).  For a dominant UPDATE against a local
UPDATE the code iterates `Object.keys(dominantEntityDelta[0])`, where index
0 of the `ChangeData` triple is the *entity id string*, and destructures
`localChange.data` as `[entId, forwardLC, reverseLC]`, so `forwardLC` is
the reverse component.  Both are embedded exactly as written. -/

def autoMergeKeyDrop (dominantEntityId : String) (lc : ChangeData) : ChangeData :=
  (stringObjectKeys dominantEntityId).foldl
    (fun c k =>
      -- `if (forwardLC.hasOwnProperty(key)) { delete forwardLC[key]; delete reverseLC[key] }`
      -- with forwardLC = c.reverse and reverseLC = c.forward
      if ohas c.reverse k then ⟨c.entityId, odel c.reverse k, odel c.forward k⟩ else c)
    lc

/-- The whole per-local-commit filtering loop of `autoMergeForSync`:
iterate the dominant delta's entity ids; drop the local change outright
when the dominant or local change is a CREATE or DELETE, and for the
UPDATE/UPDATE case run the key-drop loop and re-insert the trimmed
change (remove + re-add appends it at the end of the iteration order). -/
def autoMergeFilterLocalDelta (dominant : Delta) (l : Delta) : Delta :=
  dominant.data.foldl
    (fun acc dc =>
      match acc.change dc.entityId with
      | none => acc
      | some lc =>
          if dc.type = .CREATE ∨ dc.type = .DELETE then
            acc.dropChange dc.entityId
          else if dc.type = .UPDATE then
            if lc.type = .CREATE ∨ lc.type = .DELETE then
              acc.dropChange dc.entityId
            else if lc.type = .UPDATE then
              ⟨(acc.dropChange dc.entityId).data ++ [autoMergeKeyDrop dc.entityId lc]⟩
            else acc
          else acc)
    l

/-- Modelled from the spec: the intended conflict trim — "local UPDATE on
`e` ⇒ drop only the keys also touched by `dominant.forward`; re-insert the
trimmed Change" (§4.5 step 2d).  Used only to exhibit the divergence of
the shipped key-drop loop. -/
def specKeyDrop (dominantForward : Payload) (lc : ChangeData) : ChangeData :=
  (okeys dominantForward).foldl
    (fun c k =>
      if ohas c.forward k then ⟨c.entityId, odel c.reverse k, odel c.forward k⟩ else c)
    lc

/-! ## The indexed in-memory store (`storage/InMemoryStore.test.ts`,
classes `IndexManager`, `QueryOptimizer`, `InMemoryStore`)

JS class identity is modelled by class name plus an `instOf` relation
standing for `instanceof` (strict constructor equality of the source's
`filter.type === allowedType` becomes name equality).  We embed the query
path: index key generation, the selectivity-based planner, and `find`. -/

/-- `ENTITY_TYPE_INDEX_KEY = 'entityType'`, written `__type__` in schemas. -/
def ENTITY_TYPE_INDEX_KEY : String := "entityType"

structure IndexField where
  indexKey : String
  allowedTypes : List String := []
deriving Repr, DecidableEq

structure IndexConfig where
  name : String
  fields : List IndexField
  isUnique : Bool
deriving Repr, DecidableEq

/-- The stored value of an index bucket: a single entity for unique
indexes, an array otherwise. -/
inductive IndexVal where
  | one : EntityRec → IndexVal
  | many : List EntityRec → IndexVal
deriving Repr, DecidableEq

/-- An index: buckets keyed by generated index key. -/
abbrev Index := List (String × IndexVal)

/-- The index manager state: per-config indexes keyed by config name,
in configuration order. -/
structure InMemStore where
  configs : List IndexConfig
  indexes : List (String × Index)
deriving Repr, DecidableEq

def idxLookup (idx : Index) (k : String) : Option IndexVal :=
  (idx.find? (fun kv => kv.1 == k)).map (·.2)

def InMemStore.indexOf (s : InMemStore) (name : String) : Index :=
  ((s.indexes.find? (fun kv => kv.1 == name)).map (·.2)).getD []

mutual

/-- JS `String(v)` coercion used when building key parts. -/
def jsToString : JVal → String
  | .str s => s
  | .num n => toString n
  | .obj _ => "[object Object]"
  | .arr vs => jsToStringItems vs

/-- JS array-to-string: items joined with commas. -/
def jsToStringItems : List JVal → String
  | [] => ""
  | [v] => jsToString v
  | v :: rest => jsToString v ++ "," ++ jsToStringItems rest

end

/-- Live entity property access `(entity as any)[key]` (class fields and
getters all read from `_data` in the embedded classes). -/
def eprop (e : EntityRec) (k : String) : Option JVal :=
  oget e.data k

/-- A search filter: the optional `type` entry (a class, modelled by name)
plus the other filter properties. -/
structure SearchFilter where
  ftype : Option String := none
  fprops : Payload := []
deriving Repr, DecidableEq

/-- `generateIndexKey(entity, config)`: `null` when a field is undefined on
the entity or, for `__type__` fields, when the entity matches no allowed
type; otherwise the `'|'`-join of the stringified parts. -/
def generateIndexKey (instOf : String → String → Bool) (e : EntityRec)
    (cfg : IndexConfig) : Option String := do
  let parts ← cfg.fields.mapM (fun f =>
    if f.indexKey = ENTITY_TYPE_INDEX_KEY then
      (f.allowedTypes.find? (fun t => instOf e.typeName t))
    else
      (eprop e f.indexKey).map jsToString)
  pure (String.intercalate "|" parts)

/-- `QueryOptimizer.tryGenerateFilterKey(filter, config)`: `null` when a
field is missing from the filter; for `__type__` fields the filter's type
must be strictly equal (`===`) to an allowed type. -/
def tryGenerateFilterKey (filter : SearchFilter) (cfg : IndexConfig) : Option String := do
  let parts ← cfg.fields.mapM (fun f =>
    if f.indexKey = ENTITY_TYPE_INDEX_KEY then do
      let t ← filter.ftype
      (f.allowedTypes.find? (fun a => a == t))
    else
      (oget filter.fprops f.indexKey).map jsToString)
  pure (String.intercalate "|" parts)

/-- `QueryOptimizer.estimateSelectivity`: 0 on a key miss, 1 on a unique
(non-array) hit, the bucket length otherwise. -/
def estimateSelectivity (s : InMemStore) (indexName indexKey : String) : Nat :=
  match idxLookup (s.indexOf indexName) indexKey with
  | none => 0
  | some (.one _) => 1
  | some (.many l) => l.length

structure QueryPlan where
  indexName : String
  indexKey : String
  estimatedSelectivity : Nat
deriving Repr, DecidableEq

/-- Stable insertion used to model `candidates.sort((a, b) =>
a.estimatedSelectivity - b.estimatedSelectivity)` (JS `Array.sort` is
stable, so ties keep candidate order). -/
def insertBySelectivity (p : QueryPlan) : List QueryPlan → List QueryPlan
  | [] => [p]
  | q :: qs =>
      if p.estimatedSelectivity < q.estimatedSelectivity then p :: q :: qs
      else q :: insertBySelectivity p qs

def sortBySelectivity : List QueryPlan → List QueryPlan
  | [] => []
  | p :: ps => insertBySelectivity p (sortBySelectivity ps)

/-- `QueryOptimizer.findBestIndex(filter)`: collect a plan for every index
whose filter key can be generated, sort by selectivity, take the first. -/
def findBestIndex (s : InMemStore) (filter : SearchFilter) : Option QueryPlan :=
  let candidates := s.configs.filterMap (fun cfg =>
    (tryGenerateFilterKey filter cfg).map (fun k =>
      ⟨cfg.name, k, estimateSelectivity s cfg.name k⟩))
  (sortBySelectivity candidates).head?

/-- The candidate list `find` draws from: the chosen plan's bucket, or on
no plan the full scan `Array.from(idIndex.values())` over the `id` index. -/
def findCandidates (s : InMemStore) (filter : SearchFilter) : List EntityRec :=
  match findBestIndex s filter with
  | some plan =>
      match idxLookup (s.indexOf plan.indexName) plan.indexKey with
      | some (.one e) => [e]
      | some (.many l) => l
      | none => []
  | none =>
      (s.indexOf "id").foldr
        (fun kv acc =>
          match kv.2 with
          | .one e => e :: acc
          | .many l => l ++ acc)
        []

/-- The residual filter pass of `InMemoryStore.find`: the `type` filter via
`instanceof`, every other filter entry by strict equality against the
entity's live property value. -/
def matchesResidual (instOf : String → String → Bool) (filter : SearchFilter)
    (e : EntityRec) : Bool :=
  (match filter.ftype with
   | some t => instOf e.typeName t
   | none => true) &&
  filter.fprops.all (fun kv => eprop e kv.1 == some kv.2)

/-- `InMemoryStore.find(filter)` (generator output as a list): candidates
from the planner or full scan, then the residual filter pass. -/
def InMemStore.find (instOf : String → String → Bool) (s : InMemStore)
    (filter : SearchFilter) : List EntityRec :=
  (findCandidates s filter).filter (matchesResidual instOf filter)

/-- Modelled from the spec: an index qualifies for a filter when *all* of
its fields are supplied by the filter — for the `__type__` field the
filter's `type` must strictly equal one of the allowed types, for any
other field the filter must carry that key.  Compared below with the
code's `tryGenerateFilterKey`. -/
def specQualifies (filter : SearchFilter) (cfg : IndexConfig) : Bool :=
  cfg.fields.all (fun f =>
    if f.indexKey = ENTITY_TYPE_INDEX_KEY then
      match filter.ftype with
      | some t => f.allowedTypes.contains t
      | none => false
    else ohas filter.fprops f.indexKey)

/-- A concrete indexed store used to instantiate the planner theorem: a
unique `id` index holding one entity. -/
def c9Entity : EntityRec := ⟨"DummyNote", [("id", .str "e1")]⟩

def c9Store : InMemStore :=
  ⟨[⟨"id", [⟨"id", []⟩], true⟩], [("id", [("e1", .one c9Entity)])]⟩

def c9Filter : SearchFilter := ⟨none, [("id", .str "e1")]⟩

/-! ## Canonical entity serialization (`storage/HashTree.ts`)

`getEntityDataString` = `JSON.stringify(sortObjectProperties(dumpToDict(e)))`:
keys sorted recursively to depth ≤ 3 (error beyond), arrays keep order.
String escaping is not modelled (all keys/values used here are plain). -/

/-- JS string comparison `a < b`: code-unit lexicographic (identical to
scalar-value order on the keys in play). -/
def strLtCharsB : List Char → List Char → Bool
  | [], [] => false
  | [], _ :: _ => true
  | _ :: _, [] => false
  | a :: as, b :: bs =>
      if a.toNat < b.toNat then true
      else if b.toNat < a.toNat then false
      else strLtCharsB as bs

def strLtB (a b : String) : Bool := strLtCharsB a.toList b.toList

def insertStr (s : String) : List String → List String
  | [] => [s]
  | x :: xs => if strLtB s x then s :: x :: xs else x :: insertStr s xs

/-- Ascending stable string sort (JS `sort` with a three-way comparator). -/
def sortStr : List String → List String
  | [] => []
  | x :: xs => insertStr x (sortStr xs)

def insertFieldByKey (kv : String × JVal) : List (String × JVal) → List (String × JVal)
  | [] => [kv]
  | x :: xs => if strLtB kv.1 x.1 then kv :: x :: xs else x :: insertFieldByKey kv xs

/-- Ascending stable sort of object fields by key (`Object.keys(obj).sort()`
followed by reading each key of an object with unique keys). -/
def sortFieldsByKey : List (String × JVal) → List (String × JVal)
  | [] => []
  | x :: xs => insertFieldByKey x (sortFieldsByKey xs)

/-- Is a JS value object-typed (`typeof value === 'object'`): objects and
arrays; only these are recursed into by `sortObjectProperties`. -/
def jvIsObject : JVal → Bool
  | .obj _ => true
  | .arr _ => true
  | _ => false

/-- Traverse object fields, applying `f` to object-typed values. -/
def mapObjValuesWith (f : JVal → Except String JVal) :
    List (String × JVal) → Except String (List (String × JVal))
  | [] => pure []
  | kv :: rest => do
      let v' ← if jvIsObject kv.2 then f kv.2 else pure kv.2
      let rest' ← mapObjValuesWith f rest
      pure ((kv.1, v') :: rest')

/-- Traverse array items, applying `f` to object-typed items. -/
def mapArrItemsWith (f : JVal → Except String JVal) :
    List JVal → Except String (List JVal)
  | [] => pure []
  | it :: rest => do
      let it' ← if jvIsObject it then f it else pure it
      let rest' ← mapArrItemsWith f rest
      pure (it' :: rest')

/-- `sortObjectProperties(obj, depth)`: throw past depth 3 (the check fires
when an object/array value is reached at depth 4); sort object keys
(recursing into object-typed values); map arrays (recursing into
object-typed items); return scalars unchanged.  The remaining depth budget
`4 - depth` is the structural recursion argument, so `sortObjectProperties
(v, depth)` is `sortPropsR (4 - depth) v`. -/
def sortPropsR (fuel : Nat) : JVal → Except String JVal :=
  Nat.rec
    (motive := fun _ => JVal → Except String JVal)
    (fun _ => .error "Depth exceeded: This function supports sorting up to 3 levels deep only.")
    (fun _ deeper v =>
      match v with
      | .obj fields => do
          let fields' ← mapObjValuesWith deeper fields
          pure (.obj (sortFieldsByKey fields'))
      | .arr items => do
          let items' ← mapArrItemsWith deeper items
          pure (.arr items')
      | x => pure x)
    fuel

mutual

/-- `JSON.stringify` over our JSON values (no escaping needed for the
payloads in play). -/
def jsonStringify : JVal → String
  | .str s => "\"" ++ s ++ "\""
  | .num n => toString n
  | .obj fields => "\x7b" ++ jsonFields fields ++ "\x7d"
  | .arr items => "[" ++ jsonItems items ++ "]"

def jsonFields : List (String × JVal) → String
  | [] => ""
  | [(k, v)] => "\"" ++ k ++ "\":" ++ jsonStringify v
  | (k, v) :: rest => "\"" ++ k ++ "\":" ++ jsonStringify v ++ "," ++ jsonFields rest

def jsonItems : List JVal → String
  | [] => ""
  | [v] => jsonStringify v
  | v :: rest => jsonStringify v ++ "," ++ jsonItems rest

end

/-- `getEntityDataString(entity)`: `sortObjectProperties` is entered at
depth 1, i.e. with a remaining budget of 3. -/
def getEntityDataString (e : EntityRec) : Except String String := do
  let sorted ← sortPropsR 3 (.obj (dumpToDict e))
  pure (jsonStringify sorted)

/-! ## The hash tree (`storage/HashTree.ts`)

State embedding of `HashTree` / `HashTreeNode`.  The super-root is the
node with empty entity id.  `childrenSorted` becomes `childrenIds`
(insertion order, re-sorted on demand); the per-node `_hashOutdated`
laziness is not carried: `updateRootHash` recomputes every stale hash and
an up-to-date node's cached hash equals recomputation over its unchanged
subtree, so the hash returned is a pure function of the cleaned tree.
The SHA-256 provider is a parameter `sha`. -/

structure HNode where
  entityId : String
  parentId : String
  entityDataHash : String
  removed : Bool
  childrenIds : List String
  sortOutdated : Bool
deriving Repr, DecidableEq

structure TreeState where
  nodes : List HNode
  tmp : List (String × HNode)
  cleanupNeeded : Bool
deriving Repr, DecidableEq

/-- A fresh tree holds only the super-root (`createSuperRoot`). -/
def emptyTree : TreeState :=
  ⟨[⟨"", "", "", false, [], false⟩], [], false⟩

def TreeState.node (t : TreeState) (id : String) : Option HNode :=
  t.nodes.find? (fun n => n.entityId == id)

def TreeState.updateNode (t : TreeState) (id : String) (f : HNode → HNode) : TreeState :=
  { t with nodes := t.nodes.map (fun n => if n.entityId = id then f n else n) }

/-- `HashTree.insertNode(node)`: error on duplicate id; stage under
`_tmpSubtrees` when the parent is absent (the code returns without the
reattachment step there); otherwise add as a child of the parent
(flagging the parent's children sort) and recursively reattach staged
children of the new node.  The fuel bounds the reattachment recursion
depth; `insertNode` supplies `tmp.length + 1`, which the recursion (which
only ever consumes staged entries) cannot exhaust. -/
def insertNodeF (sha : Unit) : Nat → TreeState → HNode → Except String TreeState
  | 0, _, _ => .error "insertNode: staged-subtree recursion exhausted"
  | fuel + 1, t, node =>
    if (t.node node.entityId).isSome then
      .error "Node with this entity id already exists"
    else
      match t.node node.parentId with
      | none =>
          .ok { t with tmp := t.tmp ++ [(node.parentId, node)] }
      | some _ =>
          if node.entityId = "" then
            .error "Cannot add a child with empty entity id. This is reserved for the super-root"
          else
            let t1 := t.updateNode node.parentId (fun p =>
              { p with childrenIds := p.childrenIds ++ [node.entityId], sortOutdated := true })
            let t2 : TreeState := { t1 with nodes := t1.nodes ++ [node] }
            let staged := t2.tmp.filter (fun kv => kv.1 = node.entityId)
            let t3 : TreeState := { t2 with tmp := t2.tmp.filter (fun kv => kv.1 ≠ node.entityId) }
            staged.foldlM (fun acc kv => insertNodeF sha fuel acc kv.2) t3

def TreeState.insertNode (t : TreeState) (node : HNode) : Except String TreeState :=
  insertNodeF () (t.tmp.length + 1) t node

/-- `HashTree.createRoot`. -/
def TreeState.createRoot (t : TreeState) (id dataHash : String) : Except String TreeState :=
  if id = "" then .error "Root nodes must have an entity id"
  else t.insertNode ⟨id, "", dataHash, false, [], false⟩

/-- `HashTree.createNonRoot`. -/
def TreeState.createNonRoot (t : TreeState) (id parentId dataHash : String) :
    Except String TreeState :=
  if parentId = "" then .error "Non-root nodes must have a parent id"
  else if id = "" then .error "Non-root nodes must have an entity id"
  else t.insertNode ⟨id, parentId, dataHash, false, [], false⟩

/-- `HashTree.removeNode`: tombstone the node and flag the cleanup. -/
def TreeState.removeNode (t : TreeState) (id : String) : TreeState :=
  { t.updateNode id (fun n => { n with removed := true }) with cleanupNeeded := true }

/-- `deleteNodesMarkedForRemoval`: every tombstoned node must have only
tombstoned children (`safeForSubtreeRemoval`, which recursively demands
exactly that all strict descendants are tombstoned) and a present parent;
then all tombstoned nodes are deleted from the map and from their parents'
children lists, flagging those parents for a re-sort. -/
def TreeState.sweep (t : TreeState) : Except String TreeState :=
  if t.nodes.all (fun n =>
      !n.removed ||
        ((t.node n.parentId).isSome &&
          n.childrenIds.all (fun cid =>
            match t.node cid with
            | some c => c.removed
            | none => false))) then
    .ok { t with
      nodes := (t.nodes.filter (fun n => !n.removed)).map (fun n =>
        let keep := n.childrenIds.filter (fun cid =>
          match t.node cid with
          | some c => !c.removed
          | none => true)
        if keep.length = n.childrenIds.length then n
        else { n with childrenIds := keep, sortOutdated := true }),
      cleanupNeeded := false }
  else
    .error "Cannot remove node with children"

/-- The `sortChildren` pass of `updateRootHash`: sort (ascending by entity
id) the children list of every node whose sort flag is set. -/
def TreeState.sortPass (t : TreeState) : TreeState :=
  { t with nodes := t.nodes.map (fun n =>
      if n.sortOutdated then { n with childrenIds := sortStr n.childrenIds, sortOutdated := false }
      else n) }

/-- `HashTreeNode.updateHash`: the composite hash of a node — `sha` of the
node's entity-data hash concatenated with its children's hashes in
`childrenSorted` order.  The recursion erases the visited node, so on the
acyclic states the tree reaches it computes the code's recursion; `none`
marks a dangling child reference.  The erasure bounds the recursion depth
by the node-list length, so the structural fuel `nodes.length + 1`
supplied by `nodeHash` cannot run out. -/
def nodeHashF (sha : String → String) : Nat → List HNode → String → Option String
  | 0, _, _ => none
  | fuel + 1, nodes, id =>
      match nodes.find? (fun n => n.entityId == id) with
      | none => none
      | some n =>
          let rest := nodes.filter (fun m => m.entityId ≠ id)
          let childHashes := n.childrenIds.map (fun cid => nodeHashF sha fuel rest cid)
          if childHashes.all (·.isSome) then
            some (sha (n.entityDataHash ++ String.join (childHashes.map (·.getD ""))))
          else none

def nodeHash (sha : String → String) (nodes : List HNode) (id : String) : Option String :=
  nodeHashF sha (nodes.length + 1) nodes id

/-- `HashTree.updateRootHash` followed by `rootHash()`: sweep tombstones
when flagged, reject hanging staged subtrees, run the children-sort pass,
recompute and return the super-root hash. -/
def TreeState.updateRootHash (sha : String → String) (t : TreeState) :
    Except String (TreeState × String) := do
  let t1 ← if t.cleanupNeeded then t.sweep else .ok t
  if t1.tmp ≠ [] then
    .error "Cannot update hash: hanging tmp subtrees"
  else
    let t2 := t1.sortPass
    match nodeHash sha t2.nodes "" with
    | some h => .ok (t2, h)
    | none => .error "Cannot update hash of an empty tree"

/-- `updateHashTree(tree, store, delta)`: DELETE tombstones the node,
UPDATE re-hashes the node's entity data from the (already updated) store,
CREATE hashes and inserts a fresh node under the entity's parent; then the
root hash is recomputed. -/
def updateHashTree (sha : String → String) (t : TreeState) (store : StoreSt) (d : Delta) :
    Except String (TreeState × String) := do
  let t' ← d.data.foldlM
    (fun (t : TreeState) c =>
      match c.type with
      | .DELETE =>
          match t.node c.entityId with
          | none => .error "Cannot delete a node that doesn't exist"
          | some _ => .ok (t.removeNode c.entityId)
      | .UPDATE =>
          match t.node c.entityId with
          | none => .error "Cannot update a node that doesn't exist"
          | some _ =>
              match store.findById c.entityId with
              | none => .error "Entity not found for the given change"
              | some e => do
                  let ds ← getEntityDataString e
                  .ok (t.updateNode c.entityId (fun n => { n with entityDataHash := sha ds }))
      | .CREATE =>
          match store.findById c.entityId with
          | none => .error "Entity not found for the given change"
          | some e => do
              let ds ← getEntityDataString e
              t.insertNode ⟨c.entityId, e.parentId, sha ds, false, [], false⟩
      | .EMPTY => .error "Unexpected change type")
    t
  t'.updateRootHash sha

/-- `buildSubtree(store, tree, startNode)`: insert every store entity whose
`parentId` is the start node, recursing into each.  Fuel bounds the
recursion depth (`buildHashTree` passes the store size, which suffices on
acyclic stores). -/
def buildSubtree (sha : String → String) (store : StoreSt) :
    Nat → TreeState → String → Except String TreeState
  | 0, _, _ => .error "buildSubtree: recursion exhausted"
  | fuel + 1, t, startId =>
      (store.filter (fun e => e.parentId = startId)).foldlM
        (fun t child => do
          let ds ← getEntityDataString child
          let t' ← t.createNonRoot child.eid child.parentId (sha ds)
          buildSubtree sha store fuel t' child.eid)
        t

/-- `buildHashTree(store)`: fresh tree, roots (entities with empty
`parentId`) with their subtrees, then the root-hash computation. -/
def buildHashTree (sha : String → String) (store : StoreSt) :
    Except String (TreeState × String) := do
  let t ← (store.filter (fun e => e.parentId = "")).foldlM
    (fun (t : TreeState) root => do
      let ds ← getEntityDataString root
      let t' ← t.createRoot root.eid (sha ds)
      buildSubtree sha store (store.length + 1) t' root.eid)
    emptyTree
  t.updateRootHash sha

/-! ## Commits and the commit graph (`storage/Commit.ts`,
`storage/CommitGraph.ts`, class `CommitGraph`) -/

structure Commit where
  cid : String
  parentId : String
  snapshotHash : String
  deltaData : Option Delta
  message : String
  timestamp : Int
deriving Repr, DecidableEq

structure BranchMetadata where
  name : String
  headCommitId : Option String
deriving Repr, DecidableEq

structure CommitGraph where
  branches : List BranchMetadata
  commitsById : List (String × Commit)
deriving Repr, DecidableEq

def CommitGraph.branch (g : CommitGraph) (name : String) : Option BranchMetadata :=
  g.branches.find? (fun b => b.name == name)

/-- `CommitGraph.createBranch`. -/
def CommitGraph.createBranch (g : CommitGraph) (name : String) : Except String CommitGraph :=
  if (g.branch name).isSome then .error "Branch already exists"
  else .ok { g with branches := g.branches ++ [⟨name, none⟩] }

/-- `CommitGraph.setBranch`: update the head in place, or append a new
branch. -/
def CommitGraph.setBranch (g : CommitGraph) (name : String) (headCommitId : Option String) :
    CommitGraph :=
  if (g.branch name).isSome then
    { g with branches := g.branches.map (fun b => if b.name = name then ⟨name, headCommitId⟩ else b) }
  else
    { g with branches := g.branches ++ [⟨name, headCommitId⟩] }

def CommitGraph.commit (g : CommitGraph) (cid : String) : Option Commit :=
  (g.commitsById.find? (fun kv => kv.1 == cid)).map (·.2)

/-- `CommitGraph.addCommit(commit)`: the graph stores a copy built with
`commit.data(false)`, which drops the delta payload. -/
def CommitGraph.addCommit (g : CommitGraph) (c : Commit) : CommitGraph :=
  let stripped := { c with deltaData := none }
  if (g.commit c.cid).isSome then
    { g with commitsById := g.commitsById.map (fun kv => if kv.1 = c.cid then (c.cid, stripped) else kv) }
  else
    { g with commitsById := g.commitsById ++ [(c.cid, stripped)] }

/-- `CommitGraph.removeCommit`. -/
def CommitGraph.removeCommit (g : CommitGraph) (cid : String) : CommitGraph :=
  { g with commitsById := g.commitsById.filter (fun kv => kv.1 ≠ cid) }

/-- The head-to-root parent walk shared by `branchCommits` and
`commitsBetween`: commits head first; the recursion erases visited ids,
so a parent cycle (which would not terminate in the source) reports the
missing-parent error.  Erasure bounds the depth, so the structural fuel
`avail.length + 1` supplied by `walkParents` cannot run out. -/
def walkParentsF : Nat → List (String × Commit) → String → Except String (List Commit)
  | 0, _, _ => .error "Parent commit not found"
  | fuel + 1, avail, cid =>
      match avail.find? (fun kv => kv.1 == cid) with
      | none => .error "Parent commit not found"
      | some (_, c) =>
          if c.parentId = "" then .ok [c]
          else
            match walkParentsF fuel (avail.filter (fun kv => kv.1 ≠ cid)) c.parentId with
            | .ok rest => .ok (c :: rest)
            | .error e => .error e

def walkParents (avail : List (String × Commit)) (cid : String) : Except String (List Commit) :=
  walkParentsF (avail.length + 1) avail cid

/-- `CommitGraph.branchCommits(branchName)`: all commits of the branch in
chronological order (walk the parent chain from the head, then reverse). -/
def CommitGraph.branchCommits (g : CommitGraph) (name : String) : Except String (List Commit) := do
  match g.branch name with
  | none => .error "Branch not found"
  | some b =>
      match b.headCommitId with
      | none => .ok []
      | some headId =>
          match g.commit headId with
          | none => .error "Head commit not found"
          | some _ => do
              let back ← walkParents g.commitsById headId
              .ok back.reverse

/-! ## The repository (`storage/repository/IndexedDB_storageAdapter.ts`,
class `Repository`)

Cached state of a repository (caching enabled): head store, commit graph,
full-commit cache, hash tree and current branch.  The storage adapter's
`applyUpdate` is a suspension point whose success is a boolean parameter;
fresh commit ids and timestamps are parameters as well.  `commit` mutates
every cached component *before* awaiting the adapter, so an adapter
rejection surfaces as an error paired with the already-mutated state;
errors thrown before any mutation return the input state. -/

structure RepoState where
  headStore : StoreSt
  commitGraph : CommitGraph
  commitById : List (String × Commit)
  hashTree : TreeState
  currentBranch : String
deriving Repr, DecidableEq

/-- `Repository.commit(delta, message)`: apply the delta to the head store,
update the hash tree and read the new root hash, build the commit with the
branch tip as parent, add it to the graph (delta stripped there), cache the
full commit, advance the branch head, and only then persist through the
adapter.  The result pairs the thrown-or-returned commit with the cache
state after the call. -/
def Repo.commit (sha : String → String) (adapterOk : Bool) (newId : String) (ts : Int)
    (st : RepoState) (delta : Delta) (message : String) :
    Except String Commit × RepoState :=
  if st.currentBranch = "" then (.error "Current branch is not set", st)
  else
    match st.headStore.applyDelta delta with
    | .error e => (.error e, st)
    | .ok store1 =>
        match updateHashTree sha st.hashTree store1 delta with
        | .error e => (.error ("Error updating hash tree: " ++ e), st)
        | .ok (tree1, snapshotHash) =>
            match st.commitGraph.branchCommits st.currentBranch with
            | .error e => (.error e, st)
            | .ok commits =>
                let parentId := match commits.getLast? with
                                | some c => c.cid
                                | none => ""
                let commit : Commit := ⟨newId, parentId, snapshotHash, some delta, message, ts⟩
                let g1 := (st.commitGraph.addCommit commit).setBranch st.currentBranch (some newId)
                let st1 : RepoState :=
                  { st with
                      headStore := store1,
                      hashTree := tree1,
                      commitGraph := g1,
                      commitById := st.commitById ++ [(newId, commit)] }
                if adapterOk then (.ok commit, st1)
                else (.error "adapter applyUpdate rejected", st1)

/-- `Repository.reset({relativeToHead})`: backward only; locate the target
commit on the current branch, squish the *reversed* deltas of the trailing
commits in their stored (chronological) order, apply to the head store,
drop the commits, update the hash tree, move the branch head and assert
the new root hash equals the target's snapshot hash.  The trailing commits
come from `branchCommits`, i.e. from graph-stored copies whose `deltaData`
was dropped by `addCommit`; reading it yields `undefined`, and
`new Delta(undefined).reversed()` throws a TypeError, embedded as the
corresponding error. -/
def Repo.reset (sha : String → String) (st : RepoState) (relativeToHead : Int) :
    Except String RepoState :=
  if st.currentBranch = "" then .error "Current branch is not set"
  else if relativeToHead = 0 then .ok st
  else if relativeToHead > 0 then .error "Reset forward not supported"
  else
    match st.commitGraph.branch st.currentBranch with
    | none => .error "Branch not found"
    | some b =>
        match b.headCommitId with
        | none => .error "No head commit found"
        | some _ =>
            match st.commitGraph.branchCommits st.currentBranch with
            | .error e => .error e
            | .ok branchCommits =>
                let index : Int := (branchCommits.length : Int) - 1
                let targetIndex := index + relativeToHead
                if targetIndex < 0 then .error "Resetting too far back"
                else
                  match branchCommits.get? targetIndex.toNat with
                  | none => .error "Target commit not found"
                  | some targetCommit =>
                      let commitsToRevert := branchCommits.drop (targetIndex.toNat + 1)
                      match commitsToRevert.mapM (fun c =>
                          match c.deltaData with
                          | none => Except.error "TypeError: Cannot convert undefined or null to object"
                          | some d => Except.ok d.reversedD) with
                      | .error e => .error e
                      | .ok reversedDeltas =>
                          let squishedDelta := (squishDeltas reversedDeltas).1
                          match st.headStore.applyDelta squishedDelta with
                          | .error e => .error e
                          | .ok store1 =>
                              let g1 := commitsToRevert.foldl
                                (fun (g : CommitGraph) c => g.removeCommit c.cid) st.commitGraph
                              let cache1 := commitsToRevert.foldl
                                (fun (m : List (String × Commit)) c =>
                                  m.filter (fun kv => kv.1 ≠ c.cid)) st.commitById
                              match updateHashTree sha st.hashTree store1 squishedDelta with
                              | .error e => .error e
                              | .ok (tree1, snapshotHash) =>
                                  let g2 := g1.setBranch st.currentBranch (some targetCommit.cid)
                                  if snapshotHash ≠ targetCommit.snapshotHash then
                                    .error "Snapshot hash of the head store state does not match the one of the applied commit (on reset)"
                                  else
                                    .ok { st with
                                        headStore := store1,
                                        commitGraph := g2,
                                        commitById := cache1,
                                        hashTree := tree1 }

/-! ## Concrete scenarios

Closed inputs used to evaluate the embedded code (spec §8, scenarios 1-6).
The `sha` parameter is instantiated with an injective stand-in where a
closed evaluation is needed; the code only concatenates and compares the
digests it produces. -/

/-- An injective stand-in for the SHA-256 hex digest in closed
evaluations: hashes differ exactly when the hashed strings differ. -/
def shaLit (s : String) : String := "#" ++ s ++ "#"

/-- Scenario 4 of the spec, dominant side: `dev1` commits `title:"S"` over
`{id:"n", title:"a", body:"b"}`. -/
def scnDominantDelta : Delta :=
  ⟨[⟨"n", [("title", .str "a")], [("title", .str "S")]⟩]⟩

/-- Scenario 4 of the spec, junior side: `dev2` commits
`{title:"J", body:"c"}` over the same entity. -/
def scnLocalDelta : Delta :=
  ⟨[⟨"n", [("title", .str "a"), ("body", .str "b")],
        [("title", .str "J"), ("body", .str "c")]⟩]⟩

/-- A fresh cached repository on branch `dev1` (`Repository.create`). -/
def initialRepo : RepoState :=
  ⟨[], ⟨[⟨"dev1", none⟩], []⟩, [], emptyTree, "dev1"⟩

/-- A CREATE delta for the root entity `e` with payload `a = 1`. -/
def scnCreateDelta : Delta :=
  ⟨[⟨"e", [],
      [("id", .str "e"), ("a", .num 1), ("type_name", .str "DummyPage")]⟩]⟩

/-- An UPDATE delta for `e` setting `a` from 1 to 2. -/
def scnUpdateDelta : Delta :=
  ⟨[⟨"e", [("a", .num 1)], [("a", .num 2)]⟩]⟩

/-- The repository after committing `scnCreateDelta` on the fresh repo. -/
def repoAfterOneCommit : RepoState :=
  (Repo.commit shaLit true "c1" 0 initialRepo scnCreateDelta "create e").2

/-- The repository after additionally committing `scnUpdateDelta`. -/
def repoAfterTwoCommits : RepoState :=
  (Repo.commit shaLit true "c2" 1 repoAfterOneCommit scnUpdateDelta "update e").2

/-- C3 scenario, first delta: CREATE root `p1`, then CREATE `c` under
`p1`. -/
def c3Delta1 : Delta :=
  ⟨[⟨"p1", [], [("id", .str "p1"), ("type_name", .str "DummyPage")]⟩,
    ⟨"c", [], [("id", .str "c"), ("parentId", .str "p1"),
               ("type_name", .str "DummyPage")]⟩]⟩

/-- C3 scenario, second delta: UPDATE moving `c` to the root level
(`parentId` becomes empty). -/
def c3Delta2 : Delta :=
  ⟨[⟨"c", [("parentId", .str "p1")], [("parentId", .str "")]⟩]⟩

/-- The store after `c3Delta1`. -/
def c3Store1 : StoreSt :=
  [⟨"DummyPage", [("id", .str "p1")]⟩,
   ⟨"DummyPage", [("id", .str "c"), ("parentId", .str "p1")]⟩]

/-- The store after `c3Delta1` then `c3Delta2`: `c` is now a root. -/
def c3Store2 : StoreSt :=
  [⟨"DummyPage", [("id", .str "p1")]⟩,
   ⟨"DummyPage", [("id", .str "c"), ("parentId", .str "")]⟩]

/-- The incrementally maintained hash tree: `updateHashTree` after each
delta, each run over the already-updated store, exactly as
`Repository.commit` drives it. -/
def c3Incremental : Except String (TreeState × String) := do
  let r1 ← updateHashTree shaLit emptyTree c3Store1 c3Delta1
  updateHashTree shaLit r1.1 c3Store2 c3Delta2

/-- Root hash the incremental tree reports for `c3Store2`: `c` is still
hashed as a child of `p1`. -/
def c3IncrHash : String :=
  "###\x7b\"id\":\"p1\",\"type_name\":\"DummyPage\"\x7d###\x7b\"id\":\"c\",\"parentId\":\"\",\"type_name\":\"DummyPage\"\x7d####"

/-- Root hash of the scratch build over `c3Store2`: `c` is a root
sibling of `p1`. -/
def c3BuildHash : String :=
  "###\x7b\"id\":\"c\",\"parentId\":\"\",\"type_name\":\"DummyPage\"\x7d####\x7b\"id\":\"p1\",\"type_name\":\"DummyPage\"\x7d###"

/-- A concrete hash-tree state for the composite-hash theorem: two roots
inserted in descending id order, so the super-root's children list is
unsorted and its sort flag is set. -/
def c6Tree : TreeState :=
  ⟨[⟨"", "", "", false, ["b", "a"], true⟩,
    ⟨"b", "", "#db#", false, [], false⟩,
    ⟨"a", "", "#da#", false, [], false⟩], [], false⟩

/-- `c6Tree` after `updateRootHash`: the children re-sorted ascending. -/
def c6Tree2 : TreeState :=
  ⟨[⟨"", "", "", false, ["a", "b"], false⟩,
    ⟨"b", "", "#db#", false, [], false⟩,
    ⟨"a", "", "#da#", false, [], false⟩], [], false⟩

/-- The root hash `updateRootHash shaLit` reports on `c6Tree`. -/
def c6Hash : String := "###da####db###"

/-! ## Derived forms used to state squish properties -/

/-- The per-entity outcome of `squishDeltas [Δ, Δ.reversed()]` as computed
by the merge algebra: a CREATE is cancelled by its reversal, a DELETE
merges into the update `[id, reverse, reverse]`, an UPDATE merges into
`[id, F∪R, F∪R]` (reverse priority), an EMPTY change is left alone. -/
def squishWithReverse (c : ChangeData) : Option ChangeData :=
  match c.type with
  | .CREATE => none
  | .DELETE => some ⟨c.entityId, c.reverse, c.reverse⟩
  | .UPDATE => some ⟨c.entityId, ospread c.forward c.reverse, ospread c.forward c.reverse⟩
  | .EMPTY => some c

/-- Well-formedness of a store state: unique entity ids, and each entity's
payload is a proper JS object (unique keys) that does not shadow the
serialization key `type_name`. -/
def StoreWF (s : StoreSt) : Prop :=
  (s.map (·.eid)).Nodup ∧
  ∀ e ∈ s, ohas e.data "type_name" = false ∧ (okeys e.data).Nodup

/-- Applicability of one change of a delta to a store, in the strong sense
that makes apply-then-unapply meaningful: a DELETE's reverse component is
the serialized current entity, an UPDATE's reverse component holds current
values of well-formed keys and (the C8 amendment) its forward component
introduces no key outside the reverse component. -/
def C8ChangeOK (s : StoreSt) (c : ChangeData) : Prop :=
  match c.type with
  | .CREATE => True
  | .DELETE =>
      match s.findById c.entityId with
      | some e => dumpToDict e = c.reverse
      | none => False
  | .UPDATE =>
      match s.findById c.entityId with
      | some e =>
          (okeys c.reverse).Nodup ∧
          (∀ kv ∈ c.reverse, oget (dumpToDict e) kv.1 = some kv.2) ∧
          (∀ k ∈ okeys c.forward, k ∈ okeys c.reverse)
      | none => False
  | .EMPTY => True

def C8DeltaOK (s : StoreSt) (d : Delta) : Prop :=
  (d.data.map (·.entityId)).Nodup ∧ ∀ c ∈ d.data, C8ChangeOK s c

/-- C8 counterexample data: store with `e = {x:1}` and an UPDATE that both
changes `x` and adds the new key `y`. -/
def c8Store : StoreSt := [⟨"DummyNote", [("id", .str "e"), ("x", .num 1)]⟩]

def c8Delta : Delta := ⟨[⟨"e", [("x", .num 1)], [("x", .num 2), ("y", .num 7)]⟩]⟩

/-! # Lemmas and claim theorems -/

/-! ## Payload lemmas -/

theorem oget_cons (k' : String) (v : JVal) (p : Payload) (k : String) :
    oget ((k', v) :: p) k = if k' == k then some v else oget p k := by
  by_cases h : k' == k <;> simp [oget, List.find?, h]

theorem ohas_cons (k' : String) (v : JVal) (p : Payload) (k : String) :
    ohas ((k', v) :: p) k = (k' == k || ohas p k) := by
  by_cases h : k' == k <;> simp [ohas, oget_cons, h]

theorem oget_map_replace (p : Payload) {k k' : String} (v : JVal) (h : k ≠ k') :
    oget (p.map (fun kv => if kv.1 = k then (k, v) else kv)) k' = oget p k' := by
  induction p with
  | nil => simp [oget]
  | cons kv rest ih =>
      rcases kv with ⟨a, b⟩
      by_cases ha : a = k
      · have hkk' : ¬((k : String) == k') := by simpa using h
        simp [ha, oget_cons, hkk', ih]
      · by_cases ha' : a = k'
        · have hne : ¬(k' = k) := fun he => h he.symm
          simp [if_neg ha, oget_cons, ha', hne]
        · have hb : ¬((a : String) == k') := by simpa using ha'
          simp [if_neg ha, oget_cons, hb, ih]

theorem oget_append_single (p : Payload) {k k' : String} (v : JVal) (h : k ≠ k') :
    oget (p ++ [(k, v)]) k' = oget p k' := by
  induction p with
  | nil => simp [oget_cons, show ¬((k : String) == k') from by simpa using h, oget]
  | cons kv rest ih =>
      rcases kv with ⟨a, b⟩
      by_cases ha' : a = k'
      · simp [oget_cons, ha']
      · have hb : ¬((a : String) == k') := by simpa using ha'
        simp [List.cons_append, oget_cons, hb, ih]

theorem oget_oset_ne (p : Payload) {k k' : String} (v : JVal) (h : k ≠ k') :
    oget (oset p k v) k' = oget p k' := by
  unfold oset
  split
  · exact oget_map_replace p v h
  · exact oget_append_single p v h

theorem oget_ospread_not_has (a : Payload) {b : Payload} {k : String}
    (h : ohas b k = false) : oget (ospread a b) k = oget a k := by
  induction b generalizing a with
  | nil => simp [ospread]
  | cons kv rest ih =>
      rcases kv with ⟨k0, v0⟩
      rw [ohas_cons] at h
      simp only [Bool.or_eq_false_iff, beq_eq_false_iff_ne] at h
      have step : ospread a ((k0, v0) :: rest) = ospread (oset a k0 v0) rest := by
        simp [ospread]
      rw [step, ih _ h.2, oget_oset_ne _ _ h.1]

theorem ohas_false_iff {p : Payload} {k : String} :
    ohas p k = false ↔ ∀ kv ∈ p, kv.1 ≠ k := by
  induction p with
  | nil => simp [ohas, oget]
  | cons kv rest ih =>
      rcases kv with ⟨a, b⟩
      by_cases ha : a = k <;> simp [ohas_cons, ha, ih]

theorem ohas_iff_mem_okeys {p : Payload} {k : String} :
    ohas p k = true ↔ k ∈ okeys p := by
  induction p with
  | nil => simp [ohas, oget, okeys]
  | cons kv rest ih =>
      rcases kv with ⟨a, b⟩
      by_cases ha : a = k
      · simp [ohas_cons, ha, okeys]
      · have ha' : ((a : String) == k) = false := by simpa using ha
        simp only [ohas_cons, ha', Bool.false_or, okeys, List.map_cons, List.mem_cons]
        simp only [okeys] at ih
        rw [ih]
        constructor
        · exact fun h => Or.inr h
        · rintro (he | hm)
          · exact absurd he.symm ha
          · exact hm

theorem oget_append_right {p : Payload} (q : Payload) {k : String}
    (h : ohas p k = false) : oget (p ++ q) k = oget q k := by
  induction p with
  | nil => simp
  | cons kv rest ih =>
      rcases kv with ⟨a, b⟩
      rw [ohas_cons] at h
      simp only [Bool.or_eq_false_iff, beq_eq_false_iff_ne] at h
      simp [List.cons_append, oget_cons, h.1, ih h.2]

theorem oget_oset_self (p : Payload) (k : String) (v : JVal) :
    oget (oset p k v) k = some v := by
  unfold oset
  split
  · rename_i hhas
    induction p with
    | nil => simp [ohas, oget] at hhas
    | cons kv rest ih =>
        rcases kv with ⟨a, b⟩
        by_cases ha : a = k
        · simp [ha, oget_cons]
        · rw [ohas_cons] at hhas
          have ha' : ¬((a : String) == k) := by simpa using ha
          simp only [ha', Bool.false_or] at hhas
          simp [if_neg ha, oget_cons, ha', ih hhas]
  · rename_i hhas
    rw [oget_append_right _ (by simpa using hhas)]
    simp [oget_cons]

theorem oget_mem {p : Payload} {k : String} {v : JVal} (h : oget p k = some v) :
    (k, v) ∈ p := by
  induction p with
  | nil => simp [oget] at h
  | cons kv rest ih =>
      rcases kv with ⟨a, b⟩
      by_cases ha : a = k
      · rw [oget_cons] at h
        simp [ha] at h
        simp [ha, h]
      · have ha' : ¬((a : String) == k) := by simpa using ha
        rw [oget_cons] at h
        simp only [ha', if_false] at h
        exact List.mem_cons_of_mem _ (ih h)

theorem mem_oget {p : Payload} (hp : (okeys p).Nodup) {kv : String × JVal}
    (h : kv ∈ p) : oget p kv.1 = some kv.2 := by
  induction p with
  | nil => simp at h
  | cons x rest ih =>
      rcases x with ⟨a, b⟩
      simp only [okeys, List.map_cons, List.nodup_cons] at hp
      rcases List.mem_cons.mp h with he | hm
      · subst he
        simp [oget_cons]
      · have hk : kv.1 ≠ a := by
          intro hctr
          exact hp.1 (hctr ▸ (List.mem_map.mpr ⟨kv, hm, rfl⟩))
        have ha' : ¬((a : String) == kv.1) := by simpa using fun he => hk he.symm
        rw [oget_cons]
        simp only [ha', if_false]
        exact ih hp.2 hm

theorem oset_eq_self {p : Payload} (hp : (okeys p).Nodup) {k : String} {v : JVal}
    (h : oget p k = some v) : oset p k v = p := by
  unfold oset
  have hhas : ohas p k = true := by simp [ohas, h]
  rw [if_pos hhas]
  induction p with
  | nil => simp [oget] at h
  | cons x rest ih =>
      rcases x with ⟨a, b⟩
      simp only [okeys, List.map_cons, List.nodup_cons] at hp
      by_cases ha : a = k
      · have hb : b = v := by
          rw [oget_cons] at h
          simpa [ha] using h
        have hmap : ∀ kv ∈ rest, (if kv.1 = k then (k, v) else kv) = kv := by
          intro kv hm
          have hne : kv.1 ≠ k := by
            intro hctr
            apply hp.1
            rw [ha, ← hctr]
            exact List.mem_map.mpr ⟨kv, hm, rfl⟩
          simp [hne]
        simp [ha, hb, List.map_congr_left hmap]
      · have ha' : ¬((a : String) == k) := by simpa using ha
        rw [oget_cons] at h
        simp only [ha', if_false] at h
        rw [ohas_cons] at hhas
        simp only [ha', Bool.false_or] at hhas
        simp [if_neg ha, ih hp.2 h hhas]

theorem ospread_eq_self {p : Payload} (hp : (okeys p).Nodup) {q : Payload}
    (h : ∀ kv ∈ q, oget p kv.1 = some kv.2) : ospread p q = p := by
  induction q with
  | nil => simp [ospread]
  | cons kv rest ih =>
      have step : ospread p (kv :: rest) = ospread (oset p kv.1 kv.2) rest := by
        simp [ospread]
      rw [step, oset_eq_self hp (h kv (List.mem_cons_self _ _))]
      exact ih (fun kv' h' => h kv' (List.mem_cons_of_mem _ h'))

theorem mem_oset {p : Payload} {k : String} {v : JVal} {kv : String × JVal}
    (h : kv ∈ oset p k v) : kv = (k, v) ∨ (kv ∈ p ∧ kv.1 ≠ k) := by
  unfold oset at h
  split at h
  · rcases List.mem_map.mp h with ⟨x, hx, he⟩
    by_cases hxk : x.1 = k
    · left
      simp [hxk] at he
      exact he.symm
    · right
      simp only [if_neg hxk] at he
      exact he ▸ ⟨hx, hxk⟩
  · rcases List.mem_append.mp h with hm | hm
    · by_cases hxk : kv.1 = k
      · rename_i hhas
        exfalso
        have : ohas p k = true := by
          rw [ohas_iff_mem_okeys]
          exact hxk ▸ List.mem_map.mpr ⟨kv, hm, rfl⟩
        simp [this] at hhas
      · exact Or.inr ⟨hm, hxk⟩
    · left
      simpa using hm

theorem mem_ospread_bindings {r : Payload} (hr : (okeys r).Nodup) {f : Payload}
    {kv : String × JVal} (h : kv ∈ ospread f r) :
    oget r kv.1 = some kv.2 ∨ (kv ∈ f ∧ ohas r kv.1 = false) := by
  induction r generalizing f with
  | nil => simp [ospread] at h; exact Or.inr ⟨h, by simp [ohas, oget]⟩
  | cons x rest ih =>
      rcases x with ⟨k0, v0⟩
      simp only [okeys, List.map_cons, List.nodup_cons] at hr
      have step : ospread f ((k0, v0) :: rest) = ospread (oset f k0 v0) rest := by
        simp [ospread]
      rw [step] at h
      rcases ih hr.2 h with hl | ⟨hmem, hhas⟩
      · left
        have hk : kv.1 ≠ k0 := by
          intro hctr
          have : kv.1 ∈ okeys rest := by
            rw [← ohas_iff_mem_okeys]
            simp [ohas, hl]
          exact hr.1 (hctr ▸ this)
        have hk' : ¬((k0 : String) == kv.1) := by simpa using fun he => hk he.symm
        rw [oget_cons]
        simp [hk', hl]
      · rcases mem_oset hmem with he | ⟨hf, hk⟩
        · left
          subst he
          simp [oget_cons]
        · right
          refine ⟨hf, ?_⟩
          rw [ohas_cons]
          simp [show ¬((k0 : String) == kv.1) from by simpa using fun he => hk he.symm, hhas]

/-! ## C10 — `Entity.replace` id immutability -/

/-- C10: `Entity.replace(new_data)` throws whenever `new_data` contains an
`id` key — even one equal to the current id — leaving the entity unchanged
(the error is raised before any assignment); when `id` is absent it merges
`new_data` over the current payload and the entity's id is unchanged. -/
theorem replace_id_immutable (e : EntityRec) (nd : Payload) :
    (ohas nd "id" = true →
      e.replace nd =
        .error "The id of an entity is immutable. Use the withId method to create an object with the new id.") ∧
    (ohas nd "id" = false →
      e.replace nd = .ok { e with data := ospread e.data nd } ∧
      (EntityRec.mk e.typeName (ospread e.data nd)).eid = e.eid) := by
  constructor
  · intro h
    simp [EntityRec.replace, h]
  · intro h
    refine ⟨by simp [EntityRec.replace, h], ?_⟩
    simp [EntityRec.eid, oget_ospread_not_has _ h]

/-- C10 witness: replacing with `{id:"456", s:"x"}` on an entity whose id
is already `456` errors; replacing with `{s:"x"}` succeeds and keeps the
id. -/
theorem replace_id_immutable_witness :
    (EntityRec.mk "DummyNote" [("id", .str "456")]).replace
        [("id", .str "456"), ("s", .str "x")] =
      .error "The id of an entity is immutable. Use the withId method to create an object with the new id." ∧
    (EntityRec.mk "DummyNote" [("id", .str "456")]).replace [("s", .str "x")] =
        .ok (EntityRec.mk "DummyNote" [("id", .str "456"), ("s", .str "x")]) ∧
    (EntityRec.mk "DummyNote" [("id", .str "456"), ("s", .str "x")]).eid =
      (EntityRec.mk "DummyNote" [("id", .str "456")]).eid := by
  refine ⟨(replace_id_immutable _ _).1 (by decide), ?_, ?_⟩
  · exact ((replace_id_immutable (EntityRec.mk "DummyNote" [("id", .str "456")])
      [("s", .str "x")]).2 (by decide)).1
  · exact ((replace_id_immutable (EntityRec.mk "DummyNote" [("id", .str "456")])
      [("s", .str "x")]).2 (by decide)).2

/-! ## C4 — irrational DELETE-then-UPDATE sequence -/

/-- C4: for changes on the same entity with kinds DELETE then UPDATE,
`Delta.fromChanges` surfaces an error — the merge hits the
irrational-sequence branch and the logged-error list is non-empty (the
source logs through `log.error` rather than throwing). -/
theorem fromChanges_delete_update_errors (e : String) (rd ru fu : Payload)
    (hrd : rd ≠ []) (hru : ru ≠ []) (hfu : fu ≠ []) :
    (Delta.fromChanges [⟨e, rd, []⟩, ⟨e, ru, fu⟩]).2 ≠ [] := by
  simp [Delta.fromChanges, Delta.addChangeFromData, Delta.change,
        Delta.mergeChangeWithPriority, ChangeData.type, hrd, hru, hfu]

/-- C4 witness: the concrete DELETE-then-UPDATE pair of spec scenario 5. -/
theorem fromChanges_delete_update_errors_witness :
    (Delta.fromChanges
      [⟨"456", [("id", .str "456"), ("type_name", .str "DummyNote")], []⟩,
       ⟨"456", [("s", .str "a")], [("s", .str "b")]⟩]).2 ≠ [] :=
  fromChanges_delete_update_errors "456"
    [("id", .str "456"), ("type_name", .str "DummyNote")]
    [("s", .str "a")] [("s", .str "b")]
    (by decide) (by decide) (by decide)

/-! ## C7 — UPDATE-then-DELETE merge -/

/-- C7 counterexample: merging the UPDATE `[n, {a:1}, {a:2}]` with the
DELETE `[n, {a:2,id:n}, {}]` does not yield a DELETE — the delta still
holds the original UPDATE and an error is logged. -/
theorem merge_update_delete_counterexample :
    ((Delta.mk [⟨"n", [("a", .num 1)], [("a", .num 2)]⟩]).mergeChangeWithPriority
        ⟨"n", [("a", .num 2), ("id", .str "n")], []⟩) =
      (⟨[⟨"n", [("a", .num 1)], [("a", .num 2)]⟩]⟩,
        ["Irrational or unhandled delta sequence"]) ∧
    (((Delta.mk [⟨"n", [("a", .num 1)], [("a", .num 2)]⟩]).mergeChangeWithPriority
        ⟨"n", [("a", .num 2), ("id", .str "n")], []⟩).1.change "n").map ChangeData.type =
      some .UPDATE := by
  constructor <;> rfl

/-- C7 (amended): merging a DELETE into a delta holding an UPDATE for the
same entity is unhandled by `mergeChangeWithPriority`: the delta is
returned unchanged (the UPDATE stays, no DELETE is produced) and the
irrational/unhandled-sequence error is logged. -/
theorem merge_update_delete_unhandled (d : Delta) (first next : ChangeData)
    (h1 : d.change next.entityId = some first)
    (h2 : first.type = .UPDATE) (h4 : next.type = .DELETE) :
    d.mergeChangeWithPriority next = (d, ["Irrational or unhandled delta sequence"]) := by
  simp [Delta.mergeChangeWithPriority, h1, h2, h4]

/-- C7 witness for the amended statement, at the counterexample's input. -/
theorem merge_update_delete_unhandled_witness :
    ((Delta.mk [⟨"n", [("a", .num 1)], [("a", .num 2)]⟩]).mergeChangeWithPriority
        ⟨"n", [("a", .num 2), ("id", .str "n")], []⟩) =
      (⟨[⟨"n", [("a", .num 1)], [("a", .num 2)]⟩]⟩,
        ["Irrational or unhandled delta sequence"]) :=
  merge_update_delete_unhandled
    ⟨[⟨"n", [("a", .num 1)], [("a", .num 2)]⟩]⟩
    ⟨"n", [("a", .num 1)], [("a", .num 2)]⟩
    ⟨"n", [("a", .num 2), ("id", .str "n")], []⟩
    (by decide) (by decide) (by decide)

/-! ## C1 — auto-merge key trimming -/

/-- C1: evaluating the shipped rebase filter at spec scenario 4.  The
key-drop loop iterates `Object.keys` of the entity id string `"n"` (the
character index `"0"`), so no payload key is ever dropped: the junior
commit keeps `title:"J"` instead of being rewritten to `{body:"c"}`.  The
spec-modelled trim of the same input drops exactly the dominant forward
key `title`. -/
theorem autoMerge_key_trim_divergence :
    (autoMergeFilterLocalDelta scnDominantDelta scnLocalDelta).change "n" =
      some ⟨"n", [("title", .str "a"), ("body", .str "b")],
              [("title", .str "J"), ("body", .str "c")]⟩ ∧
    specKeyDrop [("title", .str "S")]
        ⟨"n", [("title", .str "a"), ("body", .str "b")],
            [("title", .str "J"), ("body", .str "c")]⟩ =
      ⟨"n", [("body", .str "b")], [("body", .str "c")]⟩ := by
  constructor <;> rfl

/-! ## C5 — adapter rejection during commit -/

/-- C5 counterexample: with the adapter rejecting, `Repository.commit` on
the fresh repository propagates the rejection, but the cached state is not
the pre-commit state — the head store, hash tree, commit graph and branch
head were all updated before the adapter call. -/
theorem commit_adapter_reject_counterexample :
    (Repo.commit shaLit false "c1" 0 initialRepo scnCreateDelta "create e").1 =
      .error "adapter applyUpdate rejected" ∧
    (Repo.commit shaLit false "c1" 0 initialRepo scnCreateDelta "create e").2 ≠
      initialRepo := by
  refine ⟨rfl, by decide⟩

/-- C5 (amended): when the pre-adapter steps of `Repository.commit`
succeed and the adapter's `applyUpdate` rejects, the error propagates to
the caller and the cached state equals the fully-mutated post-commit state
(head store with the delta applied, hash tree updated, commit added,
branch head advanced) — exactly the state a successful commit yields, not
the state from before the call. -/
theorem commit_adapter_reject_keeps_mutations (sha : String → String)
    (newId : String) (ts : Int) (st : RepoState) (delta : Delta) (msg : String)
    (c : Commit) (st' : RepoState)
    (h : Repo.commit sha true newId ts st delta msg = (.ok c, st')) :
    Repo.commit sha false newId ts st delta msg =
      (.error "adapter applyUpdate rejected", st') := by
  unfold Repo.commit at h ⊢
  by_cases hb : st.currentBranch = ""
  · simp [hb] at h
  · simp only [if_neg hb] at h ⊢
    cases hap : st.headStore.applyDelta delta with
    | error e => simp [hap] at h
    | ok store1 =>
        simp only [hap] at h ⊢
        cases hut : updateHashTree sha st.hashTree store1 delta with
        | error e => simp [hut] at h
        | ok pr =>
            obtain ⟨tree1, snapshotHash⟩ := pr
            simp only [hut] at h ⊢
            cases hbc : st.commitGraph.branchCommits st.currentBranch with
            | error e => simp [hbc] at h
            | ok commits =>
                simp only [hbc] at h ⊢
                simp only [if_pos rfl, if_neg (by simp : ¬(false = true))] at h ⊢
                exact congrArg (fun p => (Except.error "adapter applyUpdate rejected", p.2)) h

/-- C5 witness for the amended statement: the fresh-repo commit with a
rejecting adapter lands in exactly the state the successful commit
produces. -/
theorem commit_adapter_reject_keeps_mutations_witness :
    Repo.commit shaLit false "c1" 0 initialRepo scnCreateDelta "create e" =
      (.error "adapter applyUpdate rejected", repoAfterOneCommit) :=
  commit_adapter_reject_keeps_mutations shaLit "c1" 0 initialRepo scnCreateDelta
    "create e"
    ⟨"c1", "", "###\x7b\"a\":1,\"id\":\"e\",\"type_name\":\"DummyPage\"\x7d###",
      some scnCreateDelta, "create e", 0⟩
    repoAfterOneCommit
    (by rfl)

/-! ## C2 — commit-reset round trip -/

/-- C2: evaluating `Repository.reset` at the failing inputs.  After one
commit on a fresh repository, `reset({relativeToHead:-1})` aims past the
last commit boundary and throws `Resetting too far back` instead of
restoring the initial state; after two commits, `reset({relativeToHead:-1})`
reads `deltaData` from the graph-stored commit copies — which
`CommitGraph.addCommit` stripped — and dies with a TypeError before any
revert happens.  No reset that must revert a commit can restore anything. -/
theorem reset_cannot_restore :
    Repo.reset shaLit repoAfterOneCommit (-1) = .error "Resetting too far back" ∧
    Repo.reset shaLit repoAfterTwoCommits (-1) =
      .error "TypeError: Cannot convert undefined or null to object" := by
  constructor <;> rfl

/-! ## C8 — squish of a delta with its reversal -/

theorem ohas_oset (p : Payload) (k : String) (v : JVal) (k' : String) :
    ohas (oset p k v) k' = ((k == k') || ohas p k') := by
  by_cases he : k = k'
  · subst he
    simp [ohas, oget_oset_self]
  · rw [ohas, oget_oset_ne p v he, ← ohas]
    simp [show ¬((k == k') = true) from by simpa using he]

theorem ohas_ospread (a b : Payload) (k : String) :
    ohas (ospread a b) k = (ohas a k || ohas b k) := by
  induction b generalizing a with
  | nil => simp [ospread, ohas, oget]
  | cons kv rest ih =>
      have step : ospread a (kv :: rest) = ospread (oset a kv.1 kv.2) rest := by
        simp [ospread]
      rw [step, ih, ohas_oset, ohas_cons]
      cases h1 : kv.1 == k <;> cases h2 : ohas a k <;> simp

theorem ohas_ne_nil {p : Payload} {k : String} (h : ohas p k = true) : p ≠ [] := by
  intro he
  subst he
  simp [ohas, oget] at h

theorem okeys_dump {e : EntityRec} (h : ohas e.data "type_name" = false) :
    okeys (dumpToDict e) = okeys e.data ++ ["type_name"] := by
  simp [dumpToDict, oset, h, okeys]

theorem okeys_dump_nodup {e : EntityRec} (h : ohas e.data "type_name" = false)
    (hn : (okeys e.data).Nodup) : (okeys (dumpToDict e)).Nodup := by
  rw [okeys_dump h]
  refine List.Nodup.append hn (by simp) ?_
  intro x hx hy
  simp at hy
  subst hy
  rw [← ohas_iff_mem_okeys] at hx
  simp [h] at hx

theorem loadFromDict_dump {e : EntityRec} (h : ohas e.data "type_name" = false) :
    loadFromDict (dumpToDict e) = .ok e := by
  have hd : dumpToDict e = e.data ++ [("type_name", .str e.typeName)] := by
    simp [dumpToDict, oset, h]
  rw [loadFromDict, hd, oget_append_right _ h]
  have hdel : odel (e.data ++ [("type_name", JVal.str e.typeName)]) "type_name" = e.data := by
    rw [odel, List.filter_append]
    have h1 : e.data.filter (fun kv => kv.1 ≠ "type_name") = e.data := by
      apply List.filter_eq_self.mpr
      intro a ha
      simpa using ohas_false_iff.mp h a ha
    rw [h1]
    simp
  simp [oget_cons, hdel]

theorem updateOne_self {s : StoreSt} (hn : (s.map (·.eid)).Nodup) {e : EntityRec}
    (h : s.findById e.eid = some e) : s.updateOne e = .ok s := by
  rw [StoreSt.updateOne, if_pos (by simp [h])]
  congr 1
  have hmem : e ∈ s := List.mem_of_find?_eq_some h
  have : ∀ x ∈ s, (if x.eid = e.eid then e else x) = x := by
    intro x hx
    by_cases hxe : x.eid = e.eid
    · rw [if_pos hxe]
      exact (List.inj_on_of_nodup_map hn hx hmem hxe).symm
    · rw [if_neg hxe]
  rw [List.map_congr_left this]
  exact List.map_id _

/-- Entities found by `findById` carry the looked-up id. -/
theorem findById_eid {s : StoreSt} {id : String} {e : EntityRec}
    (h : s.findById id = some e) : e.eid = id := by
  have := List.find?_some h
  simpa using this

/-- The per-entity application lemma: every change produced by
`squishWithReverse` is a no-op on a consistent store. -/
theorem applyChange_squished_noop {s : StoreSt} (hs : StoreWF s) {c : ChangeData}
    (hc : C8ChangeOK s c) {c' : ChangeData} (h : squishWithReverse c = some c') :
    s.applyChange c' = .ok s := by
  unfold squishWithReverse at h
  unfold C8ChangeOK at hc
  cases hct : c.type with
  | CREATE => rw [hct] at h; exact absurd h (by simp)
  | EMPTY =>
      rw [hct] at h
      have hce : c' = c := by simpa using h.symm
      subst hce
      rw [StoreSt.applyChange, hct]
  | DELETE =>
      rw [hct] at h hc
      have hce : c' = ⟨c.entityId, c.reverse, c.reverse⟩ := by simpa using h.symm
      subst hce
      cases hfind : s.findById c.entityId with
      | none => rw [hfind] at hc; exact absurd hc (by simp)
      | some e =>
          rw [hfind] at hc
          have hrev : c.reverse ≠ [] := by
            have := hct
            unfold ChangeData.type at this
            by_cases h1 : c.reverse = [] <;> by_cases h2 : c.forward = [] <;>
              simp [h1, h2] at this ⊢
          have hty : ChangeData.type ⟨c.entityId, c.reverse, c.reverse⟩ = .UPDATE := by
            unfold ChangeData.type
            simp [hrev]
          rw [StoreSt.applyChange, hty]
          simp only [hfind]
          obtain ⟨hwf1, hwf2⟩ := hs.2 e (List.mem_of_find?_eq_some hfind)
          have hsp : ospread (dumpToDict e) c.reverse = dumpToDict e := by
            apply ospread_eq_self (okeys_dump_nodup hwf1 hwf2)
            intro kv hm
            rw [← hc] at hm
            exact mem_oget (okeys_dump_nodup hwf1 hwf2) hm
          unfold transformedEntity
          simp only [hsp, loadFromDict_dump hwf1]
          exact updateOne_self hs.1 (by rw [findById_eid hfind]; exact hfind)
  | UPDATE =>
      rw [hct] at h hc
      have hce : c' = ⟨c.entityId, ospread c.forward c.reverse, ospread c.forward c.reverse⟩ := by
        simpa using h.symm
      subst hce
      cases hfind : s.findById c.entityId with
      | none => rw [hfind] at hc; exact absurd hc (by simp)
      | some e =>
          rw [hfind] at hc
          obtain ⟨hrnodup, hrbind, hfsub⟩ := hc
          have hrev : c.reverse ≠ [] := by
            have := hct
            unfold ChangeData.type at this
            by_cases h1 : c.reverse = [] <;> by_cases h2 : c.forward = [] <;>
              simp [h1, h2] at this ⊢
          have hMne : ospread c.forward c.reverse ≠ [] := by
            rcases List.exists_mem_of_ne_nil _ hrev with ⟨kv0, hkv0⟩
            apply ohas_ne_nil (k := kv0.1)
            rw [ohas_ospread]
            have : ohas c.reverse kv0.1 = true := by
              rw [ohas_iff_mem_okeys]
              exact List.mem_map.mpr ⟨kv0, hkv0, rfl⟩
            simp [this]
          have hty : ChangeData.type
              ⟨c.entityId, ospread c.forward c.reverse, ospread c.forward c.reverse⟩ = .UPDATE := by
            unfold ChangeData.type
            simp [hMne]
          rw [StoreSt.applyChange, hty]
          simp only [hfind]
          obtain ⟨hwf1, hwf2⟩ := hs.2 e (List.mem_of_find?_eq_some hfind)
          have hsp : ospread (dumpToDict e) (ospread c.forward c.reverse) = dumpToDict e := by
            apply ospread_eq_self (okeys_dump_nodup hwf1 hwf2)
            intro kv hm
            rcases mem_ospread_bindings hrnodup hm with hl | ⟨hf, hnh⟩
            · exact hrbind _ (oget_mem hl)
            · exfalso
              have : kv.1 ∈ okeys c.reverse :=
                hfsub _ (List.mem_map.mpr ⟨kv, hf, rfl⟩)
              rw [← ohas_iff_mem_okeys] at this
              simp [hnh] at this
          unfold transformedEntity
          simp only [hsp, loadFromDict_dump hwf1]
          exact updateOne_self hs.1 (by rw [findById_eid hfind]; exact hfind)

/-- `squishWithReverse` preserves the entity id. -/
theorem squishWithReverse_id {c c' : ChangeData} (h : squishWithReverse c = some c') :
    c'.entityId = c.entityId := by
  unfold squishWithReverse at h
  cases hct : c.type <;> rw [hct] at h
  case EMPTY => injection h with h; rw [← h]
  case CREATE => cases h
  case UPDATE => injection h with h; rw [← h]
  case DELETE => injection h with h; rw [← h]

theorem foldl_merge_fresh (l : List ChangeData) :
    ∀ (acc : Delta) (lg : List String),
    (∀ c ∈ l, acc.change c.entityId = none) →
    (l.map (·.entityId)).Nodup →
    l.foldl (fun a c =>
        let r := a.1.mergeChangeWithPriority c
        (r.1, a.2 ++ r.2)) (acc, lg)
      = (⟨acc.data ++ l⟩, lg) := by
  induction l with
  | nil => intro acc lg _ _; simp
  | cons c rest ih =>
      intro acc lg hnone hnodup
      have hc := hnone c (List.mem_cons_self _ _)
      have step1 : acc.mergeChangeWithPriority c = (⟨acc.data ++ [c]⟩, []) := by
        unfold Delta.mergeChangeWithPriority
        simp [hc]
      simp only [List.foldl_cons, step1, List.append_nil]
      rw [ih ⟨acc.data ++ [c]⟩ lg ?_ (by simpa using hnodup.of_cons)]
      · simp
      · intro c' hm
        have hN : acc.data.find? (fun c0 => c0.entityId == c'.entityId) = none := by
          have := hnone c' (List.mem_cons_of_mem _ hm)
          simpa [Delta.change] using this
        simp only [Delta.change, List.find?_append, hN, Option.none_or]
        apply List.find?_eq_none.mpr
        intro x hx
        rw [List.mem_singleton] at hx
        intro hbeq
        simp only [List.map_cons, List.nodup_cons] at hnodup
        apply hnodup.1
        have hEq : c.entityId = c'.entityId := by
          rw [← hx]
          simpa using hbeq
        rw [hEq]
        exact List.mem_map.mpr ⟨c', hm, rfl⟩

/-- `Change.reversed` swaps the CREATE and DELETE classifications. -/
theorem reversedC_type (c : ChangeData) :
    c.reversedC.type =
      match c.type with
      | .CREATE => .DELETE
      | .DELETE => .CREATE
      | x => x := by
  unfold ChangeData.reversedC ChangeData.type
  by_cases h1 : c.reverse = [] <;> by_cases h2 : c.forward = [] <;> simp [h1, h2]

theorem foldl_merge_reverse (todo : List ChangeData) :
    ∀ (done : List ChangeData) (lg : List String),
    ((done ++ todo).map (·.entityId)).Nodup →
    (todo.map ChangeData.reversedC).foldl
        (fun a c =>
          let r := a.1.mergeChangeWithPriority c
          (r.1, a.2 ++ r.2))
        ((⟨done.filterMap squishWithReverse ++ todo⟩ : Delta), lg)
      = ((⟨(done ++ todo).filterMap squishWithReverse⟩ : Delta), lg) := by
  induction todo with
  | nil =>
      intro done lg _
      simp
  | cons c rest ih =>
      intro done lg hnodup
      have hnodup' := hnodup
      rw [List.map_append, List.nodup_append] at hnodup'
      obtain ⟨hd, ht, hdisj⟩ := hnodup'
      simp only [List.map_cons, List.nodup_cons] at ht
      have hcid1 : c.entityId ∉ done.map (·.entityId) := fun hmem => hdisj hmem (by simp)
      have hcid2 : c.entityId ∉ rest.map (·.entityId) := ht.1
      have hfound : (Delta.mk (done.filterMap squishWithReverse ++ c :: rest)).change
          c.entityId = some c := by
        simp only [Delta.change, List.find?_append]
        have hnone : (done.filterMap squishWithReverse).find?
            (fun x => x.entityId == c.entityId) = none := by
          apply List.find?_eq_none.mpr
          intro x hx
          rcases List.mem_filterMap.mp hx with ⟨c0, hc0, hsq⟩
          rw [squishWithReverse_id hsq]
          intro hbeq
          apply hcid1
          have hEq : c0.entityId = c.entityId := by simpa using hbeq
          rw [← hEq]
          exact List.mem_map.mpr ⟨c0, hc0, rfl⟩
        rw [hnone]
        simp
      have hrepl : ∀ c' : ChangeData, c'.entityId = c.entityId →
          (Delta.replaceChange ⟨done.filterMap squishWithReverse ++ c :: rest⟩ c') =
            ⟨done.filterMap squishWithReverse ++ c' :: rest⟩ := by
        intro c' hid
        rw [Delta.replaceChange]
        congr 1
        rw [List.map_append, List.map_cons]
        congr 1
        · apply (List.map_congr_left ?_).trans (List.map_id _)
          intro x hx
          rcases List.mem_filterMap.mp hx with ⟨c0, hc0, hsq⟩
          have hne : x.entityId ≠ c'.entityId := by
            rw [squishWithReverse_id hsq, hid]
            intro hctr
            exact hcid1 (hctr ▸ List.mem_map.mpr ⟨c0, hc0, rfl⟩)
          simp [hne]
        · congr 1
          · rw [if_pos hid.symm]
          · apply (List.map_congr_left ?_).trans (List.map_id _)
            intro x hx
            have hne : x.entityId ≠ c'.entityId := by
              rw [hid]
              intro hctr
              exact hcid2 (hctr ▸ List.mem_map.mpr ⟨x, hx, rfl⟩)
            simp [hne]
      have hdropC : (Delta.dropChange ⟨done.filterMap squishWithReverse ++ c :: rest⟩
          c.entityId) = ⟨done.filterMap squishWithReverse ++ rest⟩ := by
        rw [Delta.dropChange]
        congr 1
        rw [List.filter_append]
        have h1 : (done.filterMap squishWithReverse).filter
            (fun x => x.entityId ≠ c.entityId) = done.filterMap squishWithReverse := by
          apply List.filter_eq_self.mpr
          intro x hx
          rcases List.mem_filterMap.mp hx with ⟨c0, hc0, hsq⟩
          simp only [decide_eq_true_eq]
          rw [squishWithReverse_id hsq]
          intro hctr
          exact hcid1 (hctr ▸ List.mem_map.mpr ⟨c0, hc0, rfl⟩)
        have h2 : (c :: rest).filter (fun x => x.entityId ≠ c.entityId) = rest := by
          rw [List.filter_cons, if_neg (by simp)]
          apply List.filter_eq_self.mpr
          intro x hx
          simp only [decide_eq_true_eq]
          intro hctr
          exact hcid2 (hctr ▸ List.mem_map.mpr ⟨x, hx, rfl⟩)
        rw [h1, h2]
      have hstep : (Delta.mk (done.filterMap squishWithReverse ++ c :: rest)).mergeChangeWithPriority
            c.reversedC =
          ((⟨(done ++ [c]).filterMap squishWithReverse ++ rest⟩ : Delta), []) := by
        unfold Delta.mergeChangeWithPriority
        rw [show (ChangeData.reversedC c).entityId = c.entityId from rfl]
        rw [hfound]
        simp only []
        rw [show (ChangeData.reversedC c).forward = c.reverse from rfl,
            show (ChangeData.reversedC c).reverse = c.forward from rfl]
        cases hct : c.type with
        | CREATE =>
            rw [reversedC_type c] at *
            rw [hct]
            rw [if_neg (by simp), if_neg (by simp), if_neg (by simp), if_pos (by simp)]
            rw [hdropC]
            have hsq : squishWithReverse c = none := by
              unfold squishWithReverse
              rw [hct]
            simp [hsq]
        | DELETE =>
            rw [reversedC_type c] at *
            rw [hct]
            rw [if_neg (by simp), if_neg (by simp), if_pos (by simp)]
            rw [hrepl ⟨c.entityId, c.reverse, c.reverse⟩ rfl]
            have hsq : squishWithReverse c = some ⟨c.entityId, c.reverse, c.reverse⟩ := by
              unfold squishWithReverse
              rw [hct]
            simp [hsq]
        | UPDATE =>
            rw [reversedC_type c] at *
            rw [hct]
            rw [if_pos (by simp)]
            rw [show ({ c with
                forward := ospread c.forward c.reverse,
                reverse := ospread c.forward c.reverse } : ChangeData) =
              ⟨c.entityId, ospread c.forward c.reverse, ospread c.forward c.reverse⟩ from rfl]
            rw [hrepl ⟨c.entityId, ospread c.forward c.reverse, ospread c.forward c.reverse⟩ rfl]
            have hsq : squishWithReverse c =
                some ⟨c.entityId, ospread c.forward c.reverse, ospread c.forward c.reverse⟩ := by
              unfold squishWithReverse
              rw [hct]
            simp [hsq]
        | EMPTY =>
            rw [reversedC_type c] at *
            rw [hct]
            rw [if_neg (by simp), if_neg (by simp), if_neg (by simp), if_neg (by simp),
              if_pos rfl]
            have hsq : squishWithReverse c = some c := by
              unfold squishWithReverse
              rw [hct]
            simp [hsq]
      simp only [List.map_cons, List.foldl_cons, hstep, List.append_nil]
      have := ih (done ++ [c]) lg (by simpa using hnodup)
      simp only [List.append_assoc, List.singleton_append] at this ⊢
      exact this

/-- The squish of a delta with its own reversal, structurally: CREATEs are
cancelled, DELETEs and UPDATEs collapse to the self-inverse updates of
`squishWithReverse`, and no error is logged. -/
theorem squish_reverse_structure (d : Delta) (h : (d.data.map (·.entityId)).Nodup) :
    squishDeltas [d, d.reversedD] =
      (⟨d.data.filterMap squishWithReverse⟩, []) := by
  have h1 : (Delta.mk []).mergeWithPriority d = (⟨d.data⟩, []) := by
    unfold Delta.mergeWithPriority
    have := foldl_merge_fresh d.data ⟨[]⟩ [] (fun c _ => rfl) h
    simpa using this
  have h2 : (Delta.mk d.data).mergeWithPriority d.reversedD
      = (⟨d.data.filterMap squishWithReverse⟩, []) := by
    unfold Delta.mergeWithPriority
    have h2' := foldl_merge_reverse d.data [] [] (by simpa using h)
    simp only [List.filterMap_nil, List.nil_append] at h2'
    simpa [Delta.reversedD] using h2'
  unfold squishDeltas
  simp only [List.foldl_cons, List.foldl_nil]
  rw [show (Delta.mk d.data) = d from rfl] at h1 h2
  simp only [h1, h2, List.append_nil, List.nil_append]

theorem applyDelta_noop {s : StoreSt} {l : List ChangeData}
    (h : ∀ c ∈ l, s.applyChange c = .ok s) : StoreSt.applyDelta s ⟨l⟩ = .ok s := by
  induction l with
  | nil => rfl
  | cons c rest ih =>
      rw [StoreSt.applyDelta] at ih ⊢
      simp only [List.foldlM_cons, h c (List.mem_cons_self _ _)]
      exact ih (fun c' h' => h c' (List.mem_cons_of_mem _ h'))

/-- C8 counterexample: the UPDATE `[e, {x:1}, {x:2, y:7}]` is applicable to
the store `{e: {x:1}}`, yet applying `squish([Δ, reversed(Δ)])` adds the
key `y:7` to the entity — not a no-op. -/
theorem squish_with_reversed_not_noop :
    StoreSt.applyDelta c8Store (squishDeltas [c8Delta, c8Delta.reversedD]).1 =
      .ok [⟨"DummyNote", [("id", .str "e"), ("x", .num 1), ("y", .num 7)]⟩] ∧
    ([⟨"DummyNote", [("id", .str "e"), ("x", .num 1), ("y", .num 7)]⟩] : StoreSt) ≠ c8Store := by
  exact ⟨rfl, by decide⟩

/-- C8 (amended): for a delta whose UPDATE changes introduce no key outside
their reverse component (no newly-added payload keys), applying
`squishDeltas [Δ, Δ.reversed()]` to a well-formed store consistent with Δ
leaves the store unchanged — each CREATE is cancelled outright and each
DELETE or UPDATE collapses to an update that rewrites current values. -/
theorem squish_with_reversed_noop (s : StoreSt) (d : Delta) (hs : StoreWF s)
    (hd : C8DeltaOK s d) :
    s.applyDelta (squishDeltas [d, d.reversedD]).1 = .ok s := by
  rw [squish_reverse_structure d hd.1]
  apply applyDelta_noop
  intro c' hm
  rcases List.mem_filterMap.mp hm with ⟨c, hc, hsq⟩
  exact applyChange_squished_noop hs (hd.2 c hc) hsq

/-- C8 witness: a store `{e: {x:1}}` with the in-place UPDATE
`[e, {x:1}, {x:5}]` (and a CREATE and a DELETE alongside). -/
theorem squish_with_reversed_noop_witness :
    StoreSt.applyDelta c8Store
      (squishDeltas [⟨[⟨"e", [("x", .num 1)], [("x", .num 5)]⟩]⟩,
        (⟨[⟨"e", [("x", .num 1)], [("x", .num 5)]⟩]⟩ : Delta).reversedD]).1 = .ok c8Store := by
  apply squish_with_reversed_noop c8Store ⟨[⟨"e", [("x", .num 1)], [("x", .num 5)]⟩]⟩
  · refine ⟨by decide, ?_⟩
    intro e he
    simp only [c8Store, List.mem_singleton] at he
    subst he
    exact ⟨by decide, by decide⟩
  · refine ⟨by decide, ?_⟩
    intro c hc
    rw [List.mem_singleton] at hc
    subst hc
    refine ⟨by decide, ?_, ?_⟩
    · intro kv hm
      rw [List.mem_singleton] at hm
      subst hm
      rfl
    · intro k hk
      exact hk

/-! ## C9 — the selectivity-based query planner -/

/-- Over the `Option` monad, `mapM` succeeds exactly when every element
maps to `some`. -/

theorem mapM_option_isSome {α β : Type} (f : α → Option β) :
    ∀ l : List α, (l.mapM f).isSome = l.all (fun a => (f a).isSome) := by
  intro l
  rw [← List.mapM'_eq_mapM]
  induction l with
  | nil => rfl
  | cons a l ih =>
      show (Option.bind (f a) (fun b => (l.mapM' f).bind
        (fun bs => some (b :: bs)))).isSome = _
      cases hfa : f a with
      | none => simp [hfa]
      | some b =>
          cases hml : l.mapM' f with
          | none => simp [hfa, hml, ← ih]
          | some bs => simp [hfa, hml, ← ih]

/-- Per-field agreement of `tryGenerateFilterKey` with the spec's
qualification condition. -/
theorem tryGenField_isSome (filter : SearchFilter) (f : IndexField) :
    (if f.indexKey = ENTITY_TYPE_INDEX_KEY then do
        let t ← filter.ftype
        (f.allowedTypes.find? (fun a => a == t))
      else
        (oget filter.fprops f.indexKey).map jsToString).isSome
    = (if f.indexKey = ENTITY_TYPE_INDEX_KEY then
        match filter.ftype with
        | some t => f.allowedTypes.contains t
        | none => false
      else ohas filter.fprops f.indexKey) := by
  by_cases hk : f.indexKey = ENTITY_TYPE_INDEX_KEY
  · simp only [if_pos hk]
    cases hft : filter.ftype with
    | none => rfl
    | some t =>
        show (f.allowedTypes.find? (fun a => a == t)).isSome =
          f.allowedTypes.contains t
        rw [Bool.eq_iff_iff, List.find?_isSome]
        simp [beq_iff_eq, List.contains_eq_any_beq, List.any_eq_true]
  · simp only [if_neg hk]
    rw [Option.isSome_map']
    rfl

/-- The code's `tryGenerateFilterKey` succeeds on exactly the indexes the
spec declares qualifying: all fields supplied by the filter, the
`__type__` field by strict type equality. -/
theorem tryGenerateFilterKey_isSome (filter : SearchFilter) (cfg : IndexConfig) :
    (tryGenerateFilterKey filter cfg).isSome = specQualifies filter cfg := by
  have h := mapM_option_isSome (fun f =>
    if f.indexKey = ENTITY_TYPE_INDEX_KEY then do
      let t ← filter.ftype
      (f.allowedTypes.find? (fun a => a == t))
    else
      (oget filter.fprops f.indexKey).map jsToString) cfg.fields
  have h2 : cfg.fields.all (fun f =>
      (if f.indexKey = ENTITY_TYPE_INDEX_KEY then do
          let t ← filter.ftype
          (f.allowedTypes.find? (fun a => a == t))
        else
          (oget filter.fprops f.indexKey).map jsToString).isSome)
      = specQualifies filter cfg := by
    unfold specQualifies
    exact congrArg cfg.fields.all (funext (tryGenField_isSome filter))
  unfold tryGenerateFilterKey
  cases hm : cfg.fields.mapM (fun f =>
    if f.indexKey = ENTITY_TYPE_INDEX_KEY then do
      let t ← filter.ftype
      (f.allowedTypes.find? (fun a => a == t))
    else
      (oget filter.fprops f.indexKey).map jsToString) with
  | none =>
      rw [hm] at h
      rw [← h2, ← h]
      rfl
  | some parts =>
      rw [hm] at h
      rw [← h2, ← h]
      rfl

/-- Membership through the stable insertion used to model `Array.sort`. -/
theorem mem_insertBySelectivity {p q : QueryPlan} :
    ∀ {l : List QueryPlan}, q ∈ insertBySelectivity p l ↔ q = p ∨ q ∈ l := by
  intro l
  induction l with
  | nil => simp [insertBySelectivity]
  | cons r rs ih =>
      unfold insertBySelectivity
      by_cases h : p.estimatedSelectivity < r.estimatedSelectivity
      · simp only [if_pos h, List.mem_cons]
      · simp only [if_neg h, List.mem_cons, ih]
        tauto

/-- `sortBySelectivity` is a permutation membership-wise. -/
theorem mem_sortBySelectivity {q : QueryPlan} :
    ∀ {l : List QueryPlan}, q ∈ sortBySelectivity l ↔ q ∈ l := by
  intro l
  induction l with
  | nil => simp [sortBySelectivity]
  | cons r rs ih =>
      unfold sortBySelectivity
      rw [mem_insertBySelectivity, ih, List.mem_cons]

/-- Insertion preserves sortedness by estimated selectivity. -/
theorem pairwise_insertBySelectivity (p : QueryPlan) :
    ∀ l : List QueryPlan,
      l.Pairwise (fun a b => a.estimatedSelectivity ≤ b.estimatedSelectivity) →
      (insertBySelectivity p l).Pairwise
        (fun a b => a.estimatedSelectivity ≤ b.estimatedSelectivity) := by
  intro l
  induction l with
  | nil => intro _; simp [insertBySelectivity]
  | cons r rs ih =>
      intro hp
      rw [List.pairwise_cons] at hp
      unfold insertBySelectivity
      by_cases h : p.estimatedSelectivity < r.estimatedSelectivity
      · rw [if_pos h]
        refine List.Pairwise.cons ?_ (List.Pairwise.cons hp.1 hp.2)
        intro q hq
        rcases List.mem_cons.mp hq with hq | hq
        · exact hq ▸ Nat.le_of_lt h
        · exact Nat.le_trans (Nat.le_of_lt h) (hp.1 q hq)
      · rw [if_neg h]
        refine List.Pairwise.cons ?_ (ih hp.2)
        intro q hq
        rcases mem_insertBySelectivity.mp hq with hq | hq
        · exact hq ▸ Nat.le_of_not_lt h
        · exact hp.1 q hq

/-- The candidate sort is sorted by estimated selectivity. -/
theorem pairwise_sortBySelectivity :
    ∀ l : List QueryPlan,
      (sortBySelectivity l).Pairwise
        (fun a b => a.estimatedSelectivity ≤ b.estimatedSelectivity) := by
  intro l
  induction l with
  | nil => simp [sortBySelectivity]
  | cons r rs ih => exact pairwise_insertBySelectivity r _ ih

/-- The head of the sorted candidate list is a member of minimal
estimated selectivity. -/
theorem sortBySelectivity_head_min {l : List QueryPlan} {hd : QueryPlan}
    (h : (sortBySelectivity l).head? = some hd) :
    hd ∈ l ∧ ∀ q ∈ l, hd.estimatedSelectivity ≤ q.estimatedSelectivity := by
  cases heq : sortBySelectivity l with
  | nil => rw [heq] at h; exact absurd h (by simp)
  | cons a tl =>
      rw [heq] at h
      simp only [List.head?_cons, Option.some.injEq] at h
      constructor
      · have ha : a ∈ sortBySelectivity l := by
          rw [heq]; exact List.mem_cons_self a tl
        have := mem_sortBySelectivity.mp ha
        rwa [h] at this
      · intro q hq
        have hq' : q ∈ sortBySelectivity l := mem_sortBySelectivity.mpr hq
        rw [heq, List.mem_cons] at hq'
        have hp := pairwise_sortBySelectivity l
        rw [heq, List.pairwise_cons] at hp
        rcases hq' with hq' | hq'
        · rw [← h, hq']
        · rw [← h]
          exact hp.1 q hq'

/-- C9: `find(filter)` plans over exactly the configured indexes all of
whose fields are supplied by the filter (`tryGenerateFilterKey` succeeds
iff the spec's qualification condition holds, the `__type__` field by
strict equality with an allowed type); any chosen plan comes from a
qualifying index, carries that index's `estimateSelectivity` (1 unique
hit / 0 miss / bucket length), and is of minimal estimated selectivity
among all qualifying indexes; when no index qualifies the candidates are
the full scan over the `id` index; and in all cases the results are the
candidates whose live property values match the remaining filter fields
by equality. -/
theorem find_planner_minimal_selectivity (instOf : String → String → Bool)
    (s : InMemStore) (filter : SearchFilter) :
    (∀ cfg ∈ s.configs,
        (tryGenerateFilterKey filter cfg).isSome = specQualifies filter cfg)
    ∧ (∀ plan, findBestIndex s filter = some plan →
        (∃ cfg ∈ s.configs, specQualifies filter cfg = true
            ∧ plan.indexName = cfg.name
            ∧ tryGenerateFilterKey filter cfg = some plan.indexKey
            ∧ plan.estimatedSelectivity =
                estimateSelectivity s cfg.name plan.indexKey)
        ∧ (∀ cfg ∈ s.configs, ∀ k, tryGenerateFilterKey filter cfg = some k →
            plan.estimatedSelectivity ≤ estimateSelectivity s cfg.name k))
    ∧ (findBestIndex s filter = none →
        (∀ cfg ∈ s.configs, specQualifies filter cfg = false)
        ∧ findCandidates s filter = (s.indexOf "id").foldr
            (fun kv acc =>
              match kv.2 with
              | .one e => e :: acc
              | .many l => l ++ acc) [])
    ∧ (∀ e, e ∈ InMemStore.find instOf s filter ↔
        e ∈ findCandidates s filter ∧ matchesResidual instOf filter e = true) := by
  refine ⟨fun cfg _ => tryGenerateFilterKey_isSome filter cfg, ?_, ?_, ?_⟩
  · intro plan hplan
    unfold findBestIndex at hplan
    have hmin := sortBySelectivity_head_min hplan
    constructor
    · rcases List.mem_filterMap.mp hmin.1 with ⟨cfg, hcfg, hF⟩
      rcases Option.map_eq_some'.mp hF with ⟨k, hk, hpk⟩
      refine ⟨cfg, hcfg, ?_, ?_, ?_, ?_⟩
      · rw [← tryGenerateFilterKey_isSome, hk]; rfl
      · rw [← hpk]
      · rw [hk, ← hpk]
      · rw [← hpk]
    · intro cfg hcfg k hk
      have hq : (⟨cfg.name, k, estimateSelectivity s cfg.name k⟩ : QueryPlan) ∈
          s.configs.filterMap (fun cfg =>
            (tryGenerateFilterKey filter cfg).map (fun k =>
              ⟨cfg.name, k, estimateSelectivity s cfg.name k⟩)) :=
        List.mem_filterMap.mpr ⟨cfg, hcfg, by rw [hk]; rfl⟩
      exact hmin.2 _ hq
  · intro hnone
    have hnone' := hnone
    unfold findBestIndex at hnone'
    have hempty : sortBySelectivity (s.configs.filterMap (fun cfg =>
        (tryGenerateFilterKey filter cfg).map (fun k =>
          ⟨cfg.name, k, estimateSelectivity s cfg.name k⟩))) = [] :=
      List.head?_eq_none_iff.mp hnone'
    constructor
    · intro cfg hcfg
      rw [← tryGenerateFilterKey_isSome]
      cases hk : tryGenerateFilterKey filter cfg with
      | none => rfl
      | some k =>
          exfalso
          have hq : (⟨cfg.name, k, estimateSelectivity s cfg.name k⟩ : QueryPlan) ∈
              s.configs.filterMap (fun cfg =>
                (tryGenerateFilterKey filter cfg).map (fun k =>
                  ⟨cfg.name, k, estimateSelectivity s cfg.name k⟩)) :=
            List.mem_filterMap.mpr ⟨cfg, hcfg, by rw [hk]; rfl⟩
          have := mem_sortBySelectivity.mpr hq
          rw [hempty] at this
          exact absurd this (List.not_mem_nil _)
    · unfold findCandidates
      rw [hnone]
  · intro e
    unfold InMemStore.find
    rw [List.mem_filter]

/-! ## C3 — incremental vs scratch hash tree -/

/-- C3: the hash determinism property P5 fails on the shipped code.  The
store reaches `c3Store2` by legal deltas (root `p1` with child `c`, then
an UPDATE re-parenting `c` to the root level), both pipelines succeed,
yet the incrementally maintained tree reports a different root hash than
`buildHashTree` on the same store: `updateHashTree`'s UPDATE branch only
re-hashes `entityDataHash` and never moves the node, so `c` keeps hashing
under `p1`. -/
theorem hash_tree_incremental_divergence :
    StoreSt.applyDelta [] c3Delta1 = .ok c3Store1 ∧
    StoreSt.applyDelta c3Store1 c3Delta2 = .ok c3Store2 ∧
    c3Incremental.map Prod.snd = .ok c3IncrHash ∧
    (buildHashTree shaLit c3Store2).map Prod.snd = .ok c3BuildHash ∧
    c3IncrHash ≠ c3BuildHash :=
  ⟨rfl, rfl, rfl, rfl, by decide⟩

/-- C9 witness: the planner theorem instantiated at a concrete store with
a unique `id` index and an id-equality filter. -/
theorem find_planner_minimal_selectivity_witness :
    (∀ cfg ∈ c9Store.configs,
        (tryGenerateFilterKey c9Filter cfg).isSome = specQualifies c9Filter cfg)
    ∧ (∀ plan, findBestIndex c9Store c9Filter = some plan →
        (∃ cfg ∈ c9Store.configs, specQualifies c9Filter cfg = true
            ∧ plan.indexName = cfg.name
            ∧ tryGenerateFilterKey c9Filter cfg = some plan.indexKey
            ∧ plan.estimatedSelectivity =
                estimateSelectivity c9Store cfg.name plan.indexKey)
        ∧ (∀ cfg ∈ c9Store.configs, ∀ k,
            tryGenerateFilterKey c9Filter cfg = some k →
            plan.estimatedSelectivity ≤ estimateSelectivity c9Store cfg.name k))
    ∧ (findBestIndex c9Store c9Filter = none →
        (∀ cfg ∈ c9Store.configs, specQualifies c9Filter cfg = false)
        ∧ findCandidates c9Store c9Filter = (c9Store.indexOf "id").foldr
            (fun kv acc =>
              match kv.2 with
              | .one e => e :: acc
              | .many l => l ++ acc) [])
    ∧ (∀ e, e ∈ InMemStore.find (fun a b => a == b) c9Store c9Filter ↔
        e ∈ findCandidates c9Store c9Filter ∧
          matchesResidual (fun a b => a == b) c9Filter e = true) :=
  find_planner_minimal_selectivity (fun a b => a == b) c9Store c9Filter

/-! ## C6 — the composite node hash

Order lemmas for the JS code-unit comparison, sortedness of `sortStr`,
fuel stability of the hash recursion, and preservation of the tree
invariants through `sweep` and the children-sort pass. -/

/-- The code-unit comparison is asymmetric. -/

theorem strLtCharsB_asymm :
    ∀ (a b : List Char), strLtCharsB a b = true → strLtCharsB b a = false := by
  intro a
  induction a with
  | nil =>
      intro b hb
      cases b with
      | nil => simp [strLtCharsB] at hb
      | cons y ys => simp [strLtCharsB]
  | cons x xs ih =>
      intro b hb
      cases b with
      | nil => simp [strLtCharsB] at hb
      | cons y ys =>
          unfold strLtCharsB at hb ⊢
          by_cases h1 : x.toNat < y.toNat
          · have h2 : ¬ y.toNat < x.toNat := by omega
            simp [h1, h2]
          · by_cases h2 : y.toNat < x.toNat
            · simp [h1, h2] at hb
            · simp only [if_neg h1, if_neg h2] at hb ⊢
              exact ih ys hb

/-- Two mutually non-less char lists are equal. -/
theorem strLtCharsB_antisymm :
    ∀ (a b : List Char), strLtCharsB a b = false → strLtCharsB b a = false → a = b := by
  intro a
  induction a with
  | nil =>
      intro b hab hba
      cases b with
      | nil => rfl
      | cons y ys => simp [strLtCharsB] at hab
  | cons x xs ih =>
      intro b hab hba
      cases b with
      | nil => simp [strLtCharsB] at hba
      | cons y ys =>
          unfold strLtCharsB at hab hba
          by_cases h1 : x.toNat < y.toNat
          · simp [h1] at hab
          · by_cases h2 : y.toNat < x.toNat
            · simp [h1, h2] at hba
            · simp only [if_neg h1, if_neg h2] at hab hba
              have hb : x.toNat = y.toNat := by omega
              have hxy : x = y := Char.eq_of_val_eq (UInt32.ext hb)
              rw [hxy, ih ys hab hba]

/-- The code-unit comparison is transitive. -/
theorem strLtCharsB_trans :
    ∀ (a b c : List Char), strLtCharsB a b = true → strLtCharsB b c = true →
      strLtCharsB a c = true := by
  intro a
  induction a with
  | nil =>
      intro b c hab hbc
      cases b with
      | nil => simp [strLtCharsB] at hab
      | cons y ys =>
          cases c with
          | nil => simp [strLtCharsB] at hbc
          | cons z zs => simp [strLtCharsB]
  | cons x xs ih =>
      intro b c hab hbc
      cases b with
      | nil => simp [strLtCharsB] at hab
      | cons y ys =>
          cases c with
          | nil => simp [strLtCharsB] at hbc
          | cons z zs =>
              unfold strLtCharsB at hab hbc ⊢
              by_cases h1 : x.toNat < y.toNat
              · by_cases h2 : y.toNat < z.toNat
                · have : x.toNat < z.toNat := by omega
                  simp [this]
                · by_cases h3 : z.toNat < y.toNat
                  · simp [h2, h3] at hbc
                  · have hyz : y.toNat = z.toNat := by omega
                    have : x.toNat < z.toNat := by omega
                    simp [this]
              · by_cases h1' : y.toNat < x.toNat
                · simp [h1, h1'] at hab
                · have hxy : x.toNat = y.toNat := by omega
                  simp only [if_neg h1, if_neg h1'] at hab
                  by_cases h2 : y.toNat < z.toNat
                  · have : x.toNat < z.toNat := by omega
                    simp [this]
                  · by_cases h3 : z.toNat < y.toNat
                    · simp [h2, h3] at hbc
                    · simp only [if_neg h2, if_neg h3] at hbc
                      have g1 : ¬ x.toNat < z.toNat := by omega
                      have g2 : ¬ z.toNat < x.toNat := by omega
                      simp only [if_neg g1, if_neg g2]
                      exact ih ys zs hab hbc

theorem strLtB_asymm {a b : String} (h : strLtB a b = true) : strLtB b a = false :=
  strLtCharsB_asymm a.toList b.toList h

theorem strLtB_antisymm {a b : String} (hab : strLtB a b = false)
    (hba : strLtB b a = false) : a = b := by
  have h := strLtCharsB_antisymm a.toList b.toList hab hba
  cases a; cases b
  simp only [String.toList] at h
  subst h
  rfl

theorem strLtB_trans {a b c : String} (hab : strLtB a b = true)
    (hbc : strLtB b c = true) : strLtB a c = true :=
  strLtCharsB_trans a.toList b.toList c.toList hab hbc

/-! Insertion-sort lemmas for `sortStr`. -/

theorem insertStr_perm (s : String) :
    ∀ (l : List String), (insertStr s l).Perm (s :: l) := by
  intro l
  induction l with
  | nil => exact List.Perm.refl _
  | cons x xs ih =>
      unfold insertStr
      by_cases h : strLtB s x
      · rw [if_pos h]
      · rw [if_neg h]
        exact (List.Perm.cons x ih).trans (List.Perm.swap s x xs)

theorem sortStr_perm : ∀ (l : List String), (sortStr l).Perm l := by
  intro l
  induction l with
  | nil => exact List.Perm.refl _
  | cons x xs ih =>
      unfold sortStr
      exact (insertStr_perm x (sortStr xs)).trans (List.Perm.cons x ih)

theorem mem_insertStr {s y : String} :
    ∀ {l : List String}, y ∈ insertStr s l ↔ y = s ∨ y ∈ l := by
  intro l
  induction l with
  | nil => simp [insertStr]
  | cons x xs ih =>
      unfold insertStr
      by_cases h : strLtB s x
      · simp only [if_pos h, List.mem_cons]
      · simp only [if_neg h, List.mem_cons, ih]
        tauto

theorem pairwise_insertStr (s : String) :
    ∀ l : List String,
      l.Pairwise (fun a b => strLtB b a = false) →
      (insertStr s l).Pairwise (fun a b => strLtB b a = false) := by
  intro l
  induction l with
  | nil => intro _; simp [insertStr]
  | cons x xs ih =>
      intro hp
      rw [List.pairwise_cons] at hp
      unfold insertStr
      by_cases h : strLtB s x
      · rw [if_pos h]
        refine List.Pairwise.cons ?_ (List.Pairwise.cons hp.1 hp.2)
        intro y hy
        rcases List.mem_cons.mp hy with hy | hy
        · exact hy ▸ strLtB_asymm h
        · by_contra hys
          have hys' : strLtB y s = true := by
            cases hv : strLtB y s with
            | true => rfl
            | false => exact absurd hv hys
          have : strLtB y x = true := strLtB_trans hys' h
          rw [hp.1 y hy] at this
          exact Bool.false_ne_true this
      · rw [if_neg h]
        refine List.Pairwise.cons ?_ (ih hp.2)
        intro y hy
        rcases mem_insertStr.mp hy with hy | hy
        · rw [hy]
          cases hv : strLtB s x with
          | true => exact absurd hv h
          | false => rfl
        · exact hp.1 y hy

theorem pairwise_sortStr :
    ∀ l : List String, (sortStr l).Pairwise (fun a b => strLtB b a = false) := by
  intro l
  induction l with
  | nil => simp [sortStr]
  | cons x xs ih => exact pairwise_insertStr x _ ih

/-- On a duplicate-free list the JS sort is strictly ascending. -/
theorem sortStr_strict {l : List String} (h : l.Nodup) :
    (sortStr l).Pairwise (fun a b => strLtB a b = true) := by
  have hnd : (sortStr l).Nodup := ((sortStr_perm l).nodup_iff).mpr h
  have hws := pairwise_sortStr l
  have hcomb := hws.and hnd
  refine hcomb.imp ?_
  intro a b hab
  cases hv : strLtB a b with
  | true => rfl
  | false => exact absurd (strLtB_antisymm hv hab.1) hab.2

/-! Fuel stability of the composite hash recursion. -/

theorem nodeHashF_succ (sha : String → String) (f : Nat) (nodes : List HNode)
    (id : String) :
    nodeHashF sha (f + 1) nodes id =
      match nodes.find? (fun n => n.entityId == id) with
      | none => none
      | some n =>
          let rest := nodes.filter (fun m => m.entityId ≠ id)
          let childHashes := n.childrenIds.map (fun cid => nodeHashF sha f rest cid)
          if childHashes.all (·.isSome) then
            some (sha (n.entityDataHash ++ String.join (childHashes.map (·.getD ""))))
          else none := rfl

theorem nodeHashF_fuel_agree (sha : String → String) :
    ∀ (f1 f2 : Nat) (nodes : List HNode) (id : String),
      nodes.length < f1 → nodes.length < f2 →
      nodeHashF sha f1 nodes id = nodeHashF sha f2 nodes id := by
  intro f1
  induction f1 with
  | zero => intro f2 nodes id h1 _; omega
  | succ f1 ih =>
      intro f2 nodes id h1 h2
      cases f2 with
      | zero => omega
      | succ f2 =>
          rw [nodeHashF_succ, nodeHashF_succ]
          cases hf : nodes.find? (fun n => n.entityId == id) with
          | none => rfl
          | some n =>
              have hrest : (nodes.filter (fun m => m.entityId ≠ id)).length <
                  nodes.length := by
                refine List.length_filter_lt_length_iff_exists.mpr ⟨n, ?_, ?_⟩
                · exact List.mem_of_find?_eq_some hf
                · have := List.find?_some hf
                  simp only [beq_iff_eq] at this
                  simp [this]
              have hmap : (n.childrenIds.map (fun cid =>
                  nodeHashF sha f1 (nodes.filter (fun m => m.entityId ≠ id)) cid)) =
                  (n.childrenIds.map (fun cid =>
                  nodeHashF sha f2 (nodes.filter (fun m => m.entityId ≠ id)) cid)) := by
                refine List.map_congr_left ?_
                intro cid _
                exact ih f2 _ cid (by omega) (by omega)
              simp only [hmap]

/-- One step of the hash recursion: a computed node hash is `sha` of the
node's entity-data hash concatenated with its children's hashes in
children-list order. -/
theorem nodeHash_eq_formula (sha : String → String) (nodes : List HNode)
    (id : String) (n : HNode)
    (hf : nodes.find? (fun m => m.entityId == id) = some n) (hn : String)
    (hh : nodeHash sha nodes id = some hn) :
    hn = sha (n.entityDataHash ++ String.join (n.childrenIds.map
      (fun cid =>
        (nodeHash sha (nodes.filter (fun m => m.entityId ≠ id)) cid).getD ""))) := by
  unfold nodeHash at hh ⊢
  rw [nodeHashF_succ, hf] at hh
  have hrest : (nodes.filter (fun m => m.entityId ≠ id)).length < nodes.length := by
    refine List.length_filter_lt_length_iff_exists.mpr ⟨n, ?_, ?_⟩
    · exact List.mem_of_find?_eq_some hf
    · have := List.find?_some hf
      simp only [beq_iff_eq] at this
      simp [this]
  have hmap : (n.childrenIds.map (fun cid =>
      nodeHashF sha nodes.length (nodes.filter (fun m => m.entityId ≠ id)) cid)) =
      (n.childrenIds.map (fun cid =>
      nodeHashF sha ((nodes.filter (fun m => m.entityId ≠ id)).length + 1)
        (nodes.filter (fun m => m.entityId ≠ id)) cid)) := by
    refine List.map_congr_left ?_
    intro cid _
    exact nodeHashF_fuel_agree sha _ _ _ cid (by omega) (by omega)
  simp only [hmap] at hh
  by_cases hall : ((n.childrenIds.map (fun cid =>
      nodeHashF sha ((nodes.filter (fun m => m.entityId ≠ id)).length + 1)
        (nodes.filter (fun m => m.entityId ≠ id)) cid)).all (·.isSome)) = true
  · rw [if_pos hall] at hh
    simp only [Option.some.injEq] at hh
    rw [← hh, List.map_map]
    rfl
  · rw [if_neg hall] at hh
    exact absurd hh (by simp)

/-- Shape of a successful `updateRootHash` run: optional sweep, empty
staging area, children-sort pass, root-hash recomputation. -/

theorem updateRootHash_ok_shape (sha : String → String) (t t2 : TreeState) (h : String)
    (hok : TreeState.updateRootHash sha t = .ok (t2, h)) :
    ∃ t1 : TreeState, (if t.cleanupNeeded then t.sweep else Except.ok t) = .ok t1 ∧
      t1.tmp = [] ∧ t2 = t1.sortPass ∧
      nodeHash sha (t1.sortPass).nodes "" = some h := by
  unfold TreeState.updateRootHash at hok
  have main : ∀ t1 : TreeState,
      (if t1.tmp ≠ [] then
          (Except.error "Cannot update hash: hanging tmp subtrees" :
            Except String (TreeState × String))
        else
          match nodeHash sha (t1.sortPass).nodes "" with
          | some h => .ok (t1.sortPass, h)
          | none => .error "Cannot update hash of an empty tree") = .ok (t2, h) →
      t1.tmp = [] ∧ t2 = t1.sortPass ∧
        nodeHash sha (t1.sortPass).nodes "" = some h := by
    intro t1 hk
    by_cases htmp : t1.tmp = []
    · rw [if_neg (by simp [htmp])] at hk
      cases hnh : nodeHash sha (t1.sortPass).nodes "" with
      | none =>
          rw [hnh] at hk
          exact Except.noConfusion hk
      | some h' =>
          rw [hnh] at hk
          injection hk with hpair
          have hsnd : h' = h := congrArg Prod.snd hpair
          exact ⟨htmp, (congrArg Prod.fst hpair).symm, by rw [hsnd]⟩
    · rw [if_pos htmp] at hk
      exact Except.noConfusion hk
  by_cases hc : t.cleanupNeeded = true
  · simp only [hc, eq_self_iff_true, if_true] at hok
    cases hsw2 : t.sweep with
    | error e =>
        rw [hsw2] at hok
        exact Except.noConfusion hok
    | ok t1 =>
        rw [hsw2] at hok
        exact ⟨t1, by rw [if_pos hc], main t1 hok⟩
  · rw [Bool.not_eq_true] at hc
    simp only [hc, Bool.false_eq_true, if_false] at hok
    refine ⟨t, ?_, main t hok⟩
    rw [if_neg (by simp [hc])]

/-- The tombstone sweep preserves the sort/nodup/super-root invariants
(children lists it trims are re-flagged for sorting). -/
theorem sweep_inv (t t1 : TreeState)
    (hsorted : ∀ n ∈ t.nodes, n.sortOutdated = false →
        n.childrenIds.Pairwise (fun a b => strLtB a b = true))
    (hnodup : ∀ n ∈ t.nodes, n.childrenIds.Nodup)
    (hsr : ∀ n ∈ t.nodes, n.entityId = "" → n.entityDataHash = "")
    (hs : t.sweep = .ok t1) :
    (∀ n ∈ t1.nodes, n.sortOutdated = false →
        n.childrenIds.Pairwise (fun a b => strLtB a b = true)) ∧
    (∀ n ∈ t1.nodes, n.childrenIds.Nodup) ∧
    (∀ n ∈ t1.nodes, n.entityId = "" → n.entityDataHash = "") := by
  unfold TreeState.sweep at hs
  split at hs
  case isFalse => exact Except.noConfusion hs
  case isTrue =>
    injection hs with hs1
    subst hs1
    refine ⟨?_, ?_, ?_⟩
    · intro n hn hflag
      simp only [List.mem_map] at hn
      obtain ⟨n0, hn0, rfl⟩ := hn
      have hn0' : n0 ∈ t.nodes := (List.mem_filter.mp hn0).1
      by_cases hkeep : (n0.childrenIds.filter (fun cid =>
          match t.node cid with
          | some c => !c.removed
          | none => true)).length = n0.childrenIds.length
      · simp only [if_pos hkeep] at hflag ⊢
        exact hsorted n0 hn0' hflag
      · simp only [if_neg hkeep] at hflag
        exact absurd hflag (by simp)
    · intro n hn
      simp only [List.mem_map] at hn
      obtain ⟨n0, hn0, rfl⟩ := hn
      have hn0' : n0 ∈ t.nodes := (List.mem_filter.mp hn0).1
      by_cases hkeep : (n0.childrenIds.filter (fun cid =>
          match t.node cid with
          | some c => !c.removed
          | none => true)).length = n0.childrenIds.length
      · simp only [if_pos hkeep]
        exact hnodup n0 hn0'
      · simp only [if_neg hkeep]
        exact List.Nodup.filter _ (hnodup n0 hn0')
    · intro n hn hid
      simp only [List.mem_map] at hn
      obtain ⟨n0, hn0, rfl⟩ := hn
      have hn0' : n0 ∈ t.nodes := (List.mem_filter.mp hn0).1
      by_cases hkeep : (n0.childrenIds.filter (fun cid =>
          match t.node cid with
          | some c => !c.removed
          | none => true)).length = n0.childrenIds.length
      · simp only [if_pos hkeep] at hid ⊢
        exact hsr n0 hn0' hid
      · simp only [if_neg hkeep] at hid ⊢
        exact hsr n0 hn0' hid

/-- After the children-sort pass every children list is strictly
ascending by entity id. -/
theorem sortPass_sorted (t1 : TreeState)
    (hsorted : ∀ n ∈ t1.nodes, n.sortOutdated = false →
        n.childrenIds.Pairwise (fun a b => strLtB a b = true))
    (hnodup : ∀ n ∈ t1.nodes, n.childrenIds.Nodup) :
    ∀ n ∈ t1.sortPass.nodes, n.childrenIds.Pairwise (fun a b => strLtB a b = true) := by
  intro n hn
  unfold TreeState.sortPass at hn
  simp only [List.mem_map] at hn
  obtain ⟨n0, hn0, rfl⟩ := hn
  by_cases hf : n0.sortOutdated
  · simp only [if_pos hf]
    exact sortStr_strict (hnodup n0 hn0)
  · simp only [if_neg hf]
    exact hsorted n0 hn0 (by rwa [Bool.not_eq_true] at hf)

/-- The children-sort pass preserves the empty super-root data hash. -/
theorem sortPass_srdata (t1 : TreeState)
    (h3 : ∀ n ∈ t1.nodes, n.entityId = "" → n.entityDataHash = "") :
    ∀ n ∈ t1.sortPass.nodes, n.entityId = "" → n.entityDataHash = "" := by
  intro n hn hid
  unfold TreeState.sortPass at hn
  simp only [List.mem_map] at hn
  obtain ⟨n0, hn0, rfl⟩ := hn
  by_cases hf : n0.sortOutdated
  · simp only [if_pos hf] at hid ⊢
    exact h3 n0 hn0 hid
  · simp only [if_neg hf] at hid ⊢
    exact h3 n0 hn0 hid

/-- C6: on any tree state whose unflagged children lists are already
sorted, whose children lists are duplicate-free, and whose empty-id nodes
are proper super-roots (empty `entityDataHash`), a successful
`updateRootHash` leaves every node's children in strictly ascending
entity-id order, every computed node hash equals `sha` of the node's
`entityDataHash` concatenated with its children's hashes in that order,
and the super-root has empty `entityDataHash` with its hash equal to the
returned snapshot digest. -/
theorem composite_hash (sha : String → String) (t t2 : TreeState) (h : String)
    (hsorted : ∀ n ∈ t.nodes, n.sortOutdated = false →
        n.childrenIds.Pairwise (fun a b => strLtB a b = true))
    (hnodup : ∀ n ∈ t.nodes, n.childrenIds.Nodup)
    (hsr : ∀ n ∈ t.nodes, n.entityId = "" → n.entityDataHash = "")
    (hok : TreeState.updateRootHash sha t = .ok (t2, h)) :
    (∀ n ∈ t2.nodes, n.childrenIds.Pairwise (fun a b => strLtB a b = true)) ∧
    (∀ id n, t2.node id = some n → ∀ hn, nodeHash sha t2.nodes id = some hn →
        hn = sha (n.entityDataHash ++ String.join (n.childrenIds.map (fun cid =>
          (nodeHash sha (t2.nodes.filter (fun m => m.entityId ≠ id)) cid).getD "")))) ∧
    (∃ sr, t2.node "" = some sr ∧ sr.entityDataHash = "" ∧
        nodeHash sha t2.nodes "" = some h) := by
  obtain ⟨t1, hsw, htmp, ht2, hnh⟩ := updateRootHash_ok_shape sha t t2 h hok
  have hinv : (∀ n ∈ t1.nodes, n.sortOutdated = false →
        n.childrenIds.Pairwise (fun a b => strLtB a b = true)) ∧
      (∀ n ∈ t1.nodes, n.childrenIds.Nodup) ∧
      (∀ n ∈ t1.nodes, n.entityId = "" → n.entityDataHash = "") := by
    by_cases hc : t.cleanupNeeded
    · rw [if_pos hc] at hsw
      exact sweep_inv t t1 hsorted hnodup hsr hsw
    · rw [if_neg hc] at hsw
      injection hsw with hsw1
      subst hsw1
      exact ⟨hsorted, hnodup, hsr⟩
  subst ht2
  refine ⟨sortPass_sorted t1 hinv.1 hinv.2.1, ?_, ?_⟩
  · intro id n hfind hn hh
    unfold TreeState.node at hfind
    exact nodeHash_eq_formula sha _ id n hfind hn hh
  · have hnh' := hnh
    unfold nodeHash at hnh'
    rw [nodeHashF_succ] at hnh'
    cases hf : (t1.sortPass).nodes.find? (fun n => n.entityId == "") with
    | none =>
        rw [hf] at hnh'
        exact Option.noConfusion hnh'
    | some sr =>
        refine ⟨sr, hf, ?_, hnh⟩
        have hmem : sr ∈ (t1.sortPass).nodes := List.mem_of_find?_eq_some hf
        have hid : sr.entityId = "" := by
          have := List.find?_some hf
          simpa using this
        exact sortPass_srdata t1 hinv.2.2 sr hmem hid

/-- C6 witness: the composite-hash theorem at a concrete two-root tree
whose super-root children arrive unsorted. -/
theorem composite_hash_witness :
    (∀ n ∈ c6Tree.nodes, n.sortOutdated = false →
        n.childrenIds.Pairwise (fun a b => strLtB a b = true)) ∧
    (∀ n ∈ c6Tree.nodes, n.childrenIds.Nodup) ∧
    (∀ n ∈ c6Tree.nodes, n.entityId = "" → n.entityDataHash = "") ∧
    ((∀ n ∈ c6Tree2.nodes, n.childrenIds.Pairwise (fun a b => strLtB a b = true)) ∧
     (∀ id n, c6Tree2.node id = some n → ∀ hn,
        nodeHash shaLit c6Tree2.nodes id = some hn →
        hn = shaLit (n.entityDataHash ++ String.join (n.childrenIds.map (fun cid =>
          (nodeHash shaLit (c6Tree2.nodes.filter (fun m => m.entityId ≠ id)) cid).getD "")))) ∧
     (∃ sr, c6Tree2.node "" = some sr ∧ sr.entityDataHash = "" ∧
        nodeHash shaLit c6Tree2.nodes "" = some c6Hash)) :=
  ⟨by decide, by decide, by decide,
   composite_hash shaLit c6Tree c6Tree2 c6Hash (by decide) (by decide) (by decide) rfl⟩

end Fusion
